import Mathlib

/-!
Verification development for the claude-session-manager synchronization engine.

The definitions below are a shallow embedding of the TypeScript sources:
`src/sync/SyncService.ts`, `src/sync/SyncManifest.ts` and the WebDAV client
(`WebDavClient`).  Machine numbers (sizes, millisecond timestamps, HTTP
status codes) are modelled as `Int`/`Nat`; JavaScript strings as `String`;
`Map`/plain-object dictionaries as association lists or lookup functions;
fallible/possibly-throwing code as `Option`/`Except`.  JavaScript string
primitives that the code relies on (`split`, `join`, `trim` truthiness,
`endsWith`, `startsWith`, `replace`) are embedded as structural functions
over `String.data` so that every definition evaluates inside the kernel.
-/

/-! ## String primitives used by the TypeScript code -/

/-- Embedding of JavaScript `content.split(sep)` at the character-list level.
`splitChar sep cs` never returns `[]`; splitting the empty list yields `[[]]`,
exactly as `''.split(sep)` yields `['']`. -/
def splitChar (sep : Char) : List Char → List (List Char)
  | [] => [[]]
  | c :: cs =>
    match splitChar sep cs with
    | [] => [[c]]
    | l :: ls => if c = sep then [] :: l :: ls else (c :: l) :: ls

/-- Embedding of JavaScript `s.split(sep)` on `String`. -/
def splitStr (sep : Char) (s : String) : List String :=
  (splitChar sep s.data).map String.mk

/-- Embedding of JavaScript `Array.prototype.join(sep)` at the character-list
level (a single separator character between consecutive pieces). -/
def joinChar (sep : Char) : List (List Char) → List Char
  | [] => []
  | [d] => d
  | d :: ds => d ++ sep :: joinChar sep ds

/-- Whitespace test covering the characters relevant to the session files;
used to embed the JavaScript `line.trim()` truthiness test. -/
def isWsChar (c : Char) : Bool :=
  c = ' ' ∨ c = '\t' ∨ c = '\n' ∨ c = '\r'

/-- Embedding of the JavaScript falsiness test `!line.trim()`: the line
consists of whitespace only (in particular the empty line is blank). -/
def isBlankLine (s : String) : Bool :=
  s.data.all isWsChar

/-- Embedding of JavaScript `s.endsWith(suf)`. -/
def strEndsWith (s suf : String) : Bool :=
  List.isSuffixOf suf.data s.data

/-- Embedding of JavaScript `s.startsWith(pre)`. -/
def strStartsWith (s p : String) : Bool :=
  List.isPrefixOf p.data s.data

/-- Embedding of the JavaScript `filePath.replace(/\\/g, '/')` normalization
performed by `SyncService.deleteRemote`. -/
def normSlashes (s : String) : String :=
  ⟨s.data.map fun c => if c = '\\' then '/' else c⟩

/-- Embedding of `path.replace(/\/$/, '')` (drop one trailing slash), used by
`SyncService` on directory names returned from WebDAV listings. -/
def stripTrailingSlash (s : String) : String :=
  if s.data.getLast? = some '/' then ⟨s.data.dropLast⟩ else s

/-! ## WebDAV client (src/unnamed/part_001, class WebDavClient)

The client's retry loop, status handling and directory-creation cache are
embedded as pure functions.  The HTTP transport is abstracted as the status
answered on each attempt (`respOf`), respectively as an `Except` outcome
where `Except.error` stands for a thrown network error. -/

/-- Embedding of the `for (attempt = 0; attempt <= maxRetries; ...)` retry
loop of `WebDavClient.request` (part_001 lines 116-141).  The final `Nat`
argument is the number of loop iterations still permitted
(`maxRetries + 1 - attempt` at the top-level call), which makes the
recursion structural; `none` models the unreachable fall-through `throw`
after the loop.  The result carries the response status, the client's
`minInterval` pacing field after the call (mutated on every 503), and the
list of backoff delays that were awaited. -/
def requestGo (respOf : Nat → Nat) (maxRetries : Nat) :
    Nat → Nat → List Nat → Nat → Option (Nat × Nat × List Nat)
  | _, _, _, 0 => none
  | attempt, minInterval, delays, rem + 1 =>
    let s := respOf attempt
    if s = 503 ∧ attempt < maxRetries then
      requestGo respOf maxRetries (attempt + 1) (min (minInterval * 2) 10000)
        (delays ++ [min (3000 * 2 ^ attempt) 30000]) rem
    else
      some (s, minInterval, delays)

/-- Embedding of one full `WebDavClient.request` call starting at attempt 0
with the client's current `minInterval`.  The default `maxRetries` in the
source is 3 and the constructor sets `minInterval = 1500`. -/
def webdavRequest (respOf : Nat → Nat) (maxRetries minInterval : Nat) :
    Option (Nat × Nat × List Nat) :=
  requestGo respOf maxRetries 0 minInterval [] (maxRetries + 1)

/-- Embedding of the status check of `WebDavClient.mkdir` (part_001 lines
169-177): the call returns normally unless the status is neither 201 nor 405
and is `>= 400`; `true` means no exception is thrown. -/
def mkdirOk (status : Nat) : Bool :=
  if status ≠ 201 ∧ status ≠ 405 then
    if status ≥ 400 then false else true
  else true

/-- Embedding of the status check of `WebDavClient.delete` (part_001 lines
179-184): a 404 answer is tolerated, any other status `>= 400` throws. -/
def deleteOk (status : Nat) : Bool :=
  if status ≥ 400 ∧ status ≠ 404 then false else true

/-- Embedding of the status check of `WebDavClient.upload` (part_001 lines
199-209): any status `>= 400` throws. -/
def uploadOk (status : Nat) : Bool :=
  if status ≥ 400 then false else true

/-- Embedding of `remotePath.split('/').filter(p => p)` from
`WebDavClient.mkdirp`: the non-empty path segments. -/
def nonEmptySegments (remotePath : String) : List String :=
  (splitStr '/' remotePath).filter fun p => p ≠ ""

/-- Embedding of the loop body of `WebDavClient.mkdirp` (part_001 lines
186-197).  `st` gives the status the server answers to the MKCOL on each
path, `known` is the client's `knownDirs` cache, `current` the accumulated
path so far.  A path already in the cache is skipped; otherwise an MKCOL is
issued and — exactly as in the source, where `this.knownDirs.add(current)`
runs only after `await this.mkdir(current)` has returned — the path is added
to the cache only when `mkdir` does not throw, while a throwing `mkdir`
aborts the loop with the failed path left uncached.  Returns the MKCOL
request targets in request order, the cache after the call, and whether the
call completed without throwing. -/
def mkdirpGo (st : String → Nat) (known : List String) (current : String) :
    List String → List String × List String × Bool
  | [] => ([], known, true)
  | part :: rest =>
    let cur := current ++ "/" ++ part
    if cur ∈ known then mkdirpGo st known cur rest
    else if mkdirOk (st cur) then
      let r := mkdirpGo st (cur :: known) cur rest
      (cur :: r.1, r.2)
    else ([cur], known, false)

/-- Embedding of one `WebDavClient.mkdirp(remotePath)` call. -/
def mkdirp (st : String → Nat) (known : List String) (remotePath : String) :
    List String × List String × Bool :=
  mkdirpGo st known "" (nonEmptySegments remotePath)

/-- Cumulative ancestor paths `current ++ "/" ++ seg` of a segment list, in
order; these are exactly the `current` values at which `mkdirp` considers
issuing an MKCOL request. -/
def ancestorPaths (current : String) : List String → List String
  | [] => []
  | part :: rest =>
    let cur := current ++ "/" ++ part
    cur :: ancestorPaths cur rest

/-- Several `mkdirp` calls in sequence on one client instance, threading the
`knownDirs` cache exactly as the mutable field does; a fresh client starts
with an empty cache.  An exception thrown by one call propagates out of that
sync cycle, but the client object and its cache persist, so the session
continues with the cache the aborted call left behind. -/
def mkdirpSession (st : String → Nat) (known : List String) :
    List String → List String × List String
  | [] => ([], known)
  | p :: ps =>
    let r := mkdirp st known p
    let r2 := mkdirpSession st r.2.1 ps
    (r.1 ++ r2.1, r2.2)

/-- Embedding of `WebDavClient.exists` (part_001 lines 158-167): the PROPFIND
outcome is either a status (`Except.ok`) or a thrown transport error
(`Except.error`); the method returns `status === 207 || status === 200` and
catches every exception as `false`. -/
def existsCheck (outcome : Except String Nat) : Bool :=
  match outcome with
  | Except.ok s => if s = 207 ∨ s = 200 then true else false
  | Except.error _ => false

/-- Embedding of `WebDavClient.testConnection` (part_001 lines 147-156),
whose body performs the same check as `exists` on the root path. -/
def testConnectionCheck (outcome : Except String Nat) : Bool :=
  match outcome with
  | Except.ok s => if s = 207 ∨ s = 200 then true else false
  | Except.error _ => false

/-! ## Sync manifest and remote file metadata

`ManifestEntry` embeds the record persisted by `SyncManifest`
(src/unnamed/part_000, interface ManifestEntry); the optional etag field is
never consulted by the sync logic and is omitted.  `WebDavFileInfo` embeds
the listing record of the client (part_001, interface WebDavFileInfo) with
`lastModified` as the millisecond value of the `Date`. -/

structure ManifestEntry where
  size : Int
  mtimeMs : Int
  syncedAt : Int
deriving DecidableEq, Repr

structure WebDavFileInfo where
  path : String
  size : Int
  lastModified : Int
  isDirectory : Bool
deriving DecidableEq, Repr

/-- Embedding of the per-file data gathered by `SyncService.scanLocalFiles`
for each kept session file (full path, size, modification time). -/
structure LocalFileInfo where
  fullPath : String
  size : Int
  mtimeMs : Int
deriving DecidableEq, Repr

inductive SyncAction where
  | upload
  | download
deriving DecidableEq, Repr

/-- Embedding of the `FileChange` record of SyncService.ts (lines 24-31). -/
structure FileChange where
  relativePath : String
  localPath : Option String
  action : SyncAction
  localMtime : Option Int
  remoteMtime : Option Int
  size : Option Int
deriving DecidableEq, Repr

/-- Embedding of `SyncService.computeUploadChanges` (SyncService.ts lines
357-380).  `getEntry` stands for `this.manifest.getEntry`, `localFiles` for
the scanned local map in iteration order, `remoteFiles` for lookup in the
map of this host's remote files. -/
def computeUploadChanges (getEntry : String → Option ManifestEntry)
    (localFiles : List (String × LocalFileInfo))
    (remoteFiles : String → Option WebDavFileInfo) : List FileChange :=
  localFiles.filterMap fun p =>
    let relativePath := p.1
    let lf := p.2
    let change : FileChange :=
      { relativePath := relativePath, localPath := some lf.fullPath,
        action := SyncAction.upload, localMtime := some lf.mtimeMs,
        remoteMtime := none, size := some lf.size }
    match remoteFiles relativePath with
    | none => some change
    | some _ =>
      match getEntry relativePath with
      | some m =>
        if lf.size ≠ m.size ∨ lf.mtimeMs > m.mtimeMs + 1000 then
          some change
        else
          none
      | none => some change

/-- Embedding of the `needDownload` computation of `SyncService.performSync`
(SyncService.ts lines 232-241): download when no cache copy exists at the
mirrored path, else (when a manifest entry exists) when the remote
last-modified time exceeds the entry's `syncedAt` by more than 1000 ms, else
(no manifest entry) always.  `cacheExists rel` stands for
`fs.existsSync(path.join(this.cacheDir, rel))`. -/
def needDownload (cacheExists : String → Bool)
    (getEntry : String → Option ManifestEntry)
    (relativePath : String) (info : WebDavFileInfo) : Bool :=
  if ¬ cacheExists relativePath then true
  else
    match getEntry relativePath with
    | some m => if info.lastModified > m.syncedAt + 1000 then true else false
    | none => true

/-- Embedding of the download-planning loop of `SyncService.performSync`
(SyncService.ts lines 221-252).  `hostFiles host` stands for
`scanHostRemoteFiles(host)` in iteration order and `getEntry` for
`this.manifest.getEntry`; hosts equal to this machine's hostname are
skipped. -/
def computeDownloadChanges (hostname : String) (otherHosts : List String)
    (hostFiles : String → List (String × WebDavFileInfo))
    (cacheExists : String → Bool)
    (getEntry : String → Option ManifestEntry) : List FileChange :=
  otherHosts.flatMap fun host =>
    if host = hostname then []
    else
      (hostFiles host).filterMap fun p =>
        let relativePath := p.1
        let info := p.2
        if needDownload cacheExists getEntry relativePath info then
          some { relativePath := relativePath, localPath := none,
                 action := SyncAction.download, localMtime := none,
                 remoteMtime := some info.lastModified, size := some info.size }
        else
          none

/-- Embedding of `SyncService.scanHostRemoteFiles` (SyncService.ts lines
335-355): `projectItems` is the listing of `/hosts/{host}/projects` and
`sessionItems projName` the listing of one project directory; kept files are
non-directories ending in `.jsonl` and not starting with `agent-`, keyed by
`hosts/{host}/projects/{projName}/{file.path}`. -/
def scanHostRemoteFiles (host : String) (projectItems : List WebDavFileInfo)
    (sessionItems : String → List WebDavFileInfo) :
    List (String × WebDavFileInfo) :=
  projectItems.flatMap fun projDir =>
    if ¬ projDir.isDirectory then []
    else
      let projName := stripTrailingSlash projDir.path
      (sessionItems projName).filterMap fun file =>
        if file.isDirectory ∨ ¬ strEndsWith file.path ".jsonl"
            ∨ strStartsWith file.path "agent-" then
          none
        else
          some ("hosts/" ++ host ++ "/projects/" ++ projName ++ "/" ++ file.path,
                file)

/-- Embedding of one directory entry observed by the local scan
(`fs.readdirSync` name plus `fs.statSync` data). -/
structure DirEntry where
  name : String
  isDirectory : Bool
  size : Int
  mtimeMs : Int
deriving DecidableEq, Repr

/-- Remote relative path `hosts/{hostname}/projects/{projectDir}/{file}`
built by `SyncService.scanLocalFiles` (line 311) and
`SyncService.deleteRemote` (line 613). -/
def localRelativePath (hostname projectDir fileName : String) : String :=
  "hosts/" ++ hostname ++ "/projects/" ++ projectDir ++ "/" ++ fileName

/-- Embedding of the per-project-directory body of
`SyncService.scanLocalFiles` (SyncService.ts lines 301-317): keep names
ending in `.jsonl` and not starting with `agent-`, then drop directories,
empty files, and files modified less than 30000 ms before `now`
(`Date.now()`). -/
def scanProjectFiles (hostname projectDir fullProjectDir : String) (now : Int)
    (entries : List DirEntry) : List (String × LocalFileInfo) :=
  (entries.filter fun e =>
      strEndsWith e.name ".jsonl" && ! strStartsWith e.name "agent-").filterMap
    fun e =>
      if e.isDirectory ∨ e.size = 0 then none
      else if now - e.mtimeMs < 30000 then none
      else
        some (localRelativePath hostname projectDir e.name,
              { fullPath := fullProjectDir ++ "/" ++ e.name,
                size := e.size, mtimeMs := e.mtimeMs })

/-- Embedding of `SyncService.scanLocalFiles` over all scanned project
directories; each element of `projects` is
`(projectDir, fullProjectDir, entries)`. -/
def scanLocalFiles (hostname : String) (now : Int)
    (projects : List (String × String × List DirEntry)) :
    List (String × LocalFileInfo) :=
  projects.flatMap fun p => scanProjectFiles hostname p.1 p.2.1 now p.2.2

/-! ## Remote paths written by the sync service -/

/-- Embedding of the `hostPrefix` getter of SyncService.ts (lines 58-60). -/
def hostRoot (hostname : String) : String :=
  "/hosts/" ++ hostname

/-- Target of the PUT in `SyncService.uploadFile` (line 390):
`'/' + change.relativePath`. -/
def uploadRequestPath (c : FileChange) : String :=
  "/" ++ c.relativePath

/-- Target of the PUT in `SyncService.uploadMachineDescriptor` (line 473). -/
def machineDescriptorPath (hostname : String) : String :=
  hostRoot hostname ++ "/machine.json"

/-- Target of the PUT in `SyncService.syncHistoryFile` (line 519). -/
def historyUploadPath (hostname : String) : String :=
  hostRoot hostname ++ "/history.jsonl"

/-- The single shared document written by `SyncService.syncSessionNames`
(lines 591 and 594). -/
def sessionNamesPath : String :=
  "/session-names.json"

/-- Every PUT target a sync cycle can issue (uploads of scanned session
files, the machine descriptor, this host's history document, and the shared
session-names document), in the order the cycle issues them. -/
def syncCycleWritePaths (hostname : String) (now : Int)
    (projects : List (String × String × List DirEntry))
    (remoteFiles : String → Option WebDavFileInfo)
    (getEntry : String → Option ManifestEntry) : List String :=
  (computeUploadChanges getEntry (scanLocalFiles hostname now projects)
      remoteFiles).map uploadRequestPath
    ++ [machineDescriptorPath hostname, historyUploadPath hostname,
        sessionNamesPath]

/-! ## Deletion propagation (SyncService.deleteRemote, extension.ts delete) -/

/-- Embedding of the path computation of `SyncService.deleteRemote`
(SyncService.ts lines 610-613): normalize backslashes, split on `/`, take the
last segment as file name and the second-to-last as project directory, and
rebuild the path under this machine's own host namespace.  When the split
has fewer than two segments the JavaScript index is negative and the
interpolated value is the string `undefined`. -/
def deleteRemoteRelativePath (hostname filePath : String) : String :=
  let parts := splitStr '/' (normSlashes filePath)
  let fileName := parts.getLast?.getD ""
  let projectDir :=
    if 2 ≤ parts.length then (parts[parts.length - 2]?).getD ""
    else "undefined"
  localRelativePath hostname projectDir fileName

/-- Observable effects of one `SyncService.deleteRemote` call (lines
604-629): the DELETE request target (`none` would mean no request is
issued — the code always issues one), the manifest key removed, and the
cache-mirror relative path unlinked when present. -/
structure DeleteRemoteEffects where
  remoteDeletePath : Option String
  manifestRemoved : String
  cacheRemoved : String
deriving DecidableEq, Repr

/-- Embedding of `SyncService.deleteRemote`: the remote DELETE, the manifest
removal and the cache unlink all use the same rebuilt relative path. -/
def deleteRemoteModel (hostname filePath : String) : DeleteRemoteEffects :=
  let rel := deleteRemoteRelativePath hostname filePath
  { remoteDeletePath := some ("/" ++ rel),
    manifestRemoved := rel,
    cacheRemoved := rel }

/-! ## Shared history merge (SyncService.mergeHistoryFiles, syncHistoryFile)

`JSON.parse` of one history line followed by the `entry.sessionId`
truthiness test is abstracted as a function `parseLine`: it returns `some`
exactly when the line parses and carries a truthy `sessionId`, in which case
it supplies that identifier together with the numeric `timestamp` field.
Every other aspect of the algorithm (line splitting, the last-timestamp-wins
map with first-wins ties, the stable descending sort, the re-serialization
with a trailing newline) is embedded concretely. -/

structure HistRec where
  sessionId : String
  timestamp : Int
deriving DecidableEq, Repr

/-- One value of the `entries` map of `mergeHistoryFiles` (SyncService.ts
line 544): the surviving raw line and its timestamp. -/
structure HistEntry where
  line : String
  timestamp : Int
deriving DecidableEq, Repr

/-- Lookup in an association list, embedding `Map.prototype.get`. -/
def alistLookup {β : Type} (k : String) : List (String × β) → Option β
  | [] => none
  | p :: rest => if p.1 = k then some p.2 else alistLookup k rest

/-- Embedding of `Map.prototype.set`: replace in place when the key is
present (JavaScript maps keep the original insertion position), append
otherwise. -/
def upsertEntry (k : String) (v : HistEntry) :
    List (String × HistEntry) → List (String × HistEntry)
  | [] => [(k, v)]
  | p :: rest => if p.1 = k then (k, v) :: rest else p :: upsertEntry k v rest

/-- Embedding of the per-line body of `parseLines` inside
`mergeHistoryFiles` (SyncService.ts lines 547-558): skip blank lines, skip
lines that do not parse to a record with a truthy `sessionId`, and otherwise
keep the record unless an entry with the same identifier and a timestamp at
least as large is already present (strict `>` replaces, so the first record
wins ties). -/
def parseHistoryLine (parseLine : String → Option HistRec)
    (m : List (String × HistEntry)) (line : String) :
    List (String × HistEntry) :=
  if isBlankLine line then m
  else
    match parseLine line with
    | none => m
    | some r =>
      match alistLookup r.sessionId m with
      | none => upsertEntry r.sessionId ⟨line, r.timestamp⟩ m
      | some ex =>
        if r.timestamp > ex.timestamp then
          upsertEntry r.sessionId ⟨line, r.timestamp⟩ m
        else m

/-- Embedding of one `parseLines(content)` call of `mergeHistoryFiles`:
fold the per-line body over `content.split('\n')`. -/
def parseHistoryContent (parseLine : String → Option HistRec)
    (m : List (String × HistEntry)) (content : String) :
    List (String × HistEntry) :=
  (splitStr '\n' content).foldl (parseHistoryLine parseLine) m

/-- Descending-timestamp ordering used by the final sort of
`mergeHistoryFiles` (`(a, b) => b.timestamp - a.timestamp`). -/
def histGE (a b : HistEntry) : Prop :=
  b.timestamp ≤ a.timestamp

instance : DecidableRel histGE := fun a b =>
  inferInstanceAs (Decidable (b.timestamp ≤ a.timestamp))

instance : IsTotal HistEntry histGE :=
  ⟨fun a b => le_total b.timestamp a.timestamp⟩

instance : IsTrans HistEntry histGE :=
  ⟨fun _ _ _ h1 h2 => le_trans h2 h1⟩

/-- Embedding of `sorted.map(e => e.line).join('\n') + '\n'` (SyncService.ts
line 567). -/
def serializeHistory (lines : List String) : String :=
  ⟨joinChar '\n' (lines.map String.data) ++ ['\n']⟩

/-- Embedding of `SyncService.mergeHistoryFiles` (SyncService.ts lines
543-568).  JavaScript `Array.prototype.sort` is stable, and a stable sort by
a total preorder is uniquely determined, so insertion sort by `histGE`
produces exactly its output on the map's values in insertion order. -/
def mergeHistoryFiles (parseLine : String → Option HistRec)
    (localContent remoteContent : String) : String :=
  let entries :=
    parseHistoryContent parseLine
      (parseHistoryContent parseLine [] localContent) remoteContent
  let sorted := List.insertionSort histGE (entries.map Prod.snd)
  serializeHistory (sorted.map HistEntry.line)

/-- Embedding of the merge loop of `SyncService.syncHistoryFile`
(SyncService.ts lines 524-531): fold `mergeHistoryFiles` over the history
documents successfully downloaded from the other hosts, starting from the
local content. -/
def mergeAllHistory (parseLine : String → Option HistRec)
    (localContent : String) (remotes : List String) : String :=
  remotes.foldl (mergeHistoryFiles parseLine) localContent

/-- Embedding of the write decision of `SyncService.syncHistoryFile` (line
534): the local history file is rewritten exactly when the merged bytes
differ from the local content before the merge. -/
def syncHistoryWritesLocal (parseLine : String → Option HistRec)
    (localContent : String) (remotes : List String) : Bool :=
  if mergeAllHistory parseLine localContent remotes = localContent then false
  else true

/-- Specification-side record extraction: the `(sessionId, entry)` pair a
line contributes when it is non-blank and parses with a truthy session
identifier. -/
def lineRecord (parseLine : String → Option HistRec) (line : String) :
    Option (String × HistEntry) :=
  if isBlankLine line then none
  else (parseLine line).map fun r => (r.sessionId, ⟨line, r.timestamp⟩)

/-- Specification-side scan: all records of a content string in scan order. -/
def lineRecords (parseLine : String → Option HistRec) (content : String) :
    List (String × HistEntry) :=
  (splitStr '\n' content).filterMap (lineRecord parseLine)

/-- Specification-side scan of a two-source merge for one identifier: the
records carrying `sid`, local content first. -/
def recordsFor (parseLine : String → Option HistRec)
    (localContent remoteContent : String) (sid : String) : List HistEntry :=
  ((lineRecords parseLine localContent ++ lineRecords parseLine remoteContent).filter
      fun p => p.1 = sid).map Prod.snd

/-- Strict-greater replacement step: the accumulator survives ties. -/
def histBest (acc x : HistEntry) : HistEntry :=
  if x.timestamp > acc.timestamp then x else acc

/-- First record achieving the greatest timestamp of a scan-ordered list. -/
def firstMaxRecord : List HistEntry → Option HistEntry
  | [] => none
  | r :: rs => some (rs.foldl histBest r)

/-- One-pass merge of several sources: parse every source, in order, into a
single entries map. -/
def onePassEntries (parseLine : String → Option HistRec)
    (sources : List String) : List (String × HistEntry) :=
  sources.foldl (parseHistoryContent parseLine) []

/-! ## Shared name-override merge (SyncService.syncSessionNames) -/

/-- Embedding of the JavaScript object spread `{ ...localNames, ...remote }`
(SyncService.ts line 587) on association lists with unique keys: keys of the
local object in insertion order (a colliding key taking the remote value),
then the remote-only keys in remote insertion order. -/
def spreadMerge (localNames remote : List (String × String)) :
    List (String × String) :=
  localNames.map (fun p => (p.1, (alistLookup p.1 remote).getD p.2))
    ++ remote.filter fun p => alistLookup p.1 localNames = none

/-- Observable writes of one `SyncService.syncSessionNames` call: the
mapping written to the local `session-names.json` and the mapping uploaded
to the shared remote document (`none` meaning the corresponding write does
not happen). -/
structure NamesSyncEffects where
  localWritten : Option (List (String × String))
  remoteWritten : Option (List (String × String))
deriving DecidableEq, Repr

/-- Embedding of `SyncService.syncSessionNames` (SyncService.ts lines
580-596) above the JSON layer: when the remote document exists, the spread
merge is written both locally and remotely, unconditionally; otherwise the
local mapping is uploaded only when it is non-empty (the source compares the
serialized content with the two-character empty-object literal). -/
def syncSessionNamesModel (localNames : List (String × String))
    (remoteNames : Option (List (String × String))) : NamesSyncEffects :=
  match remoteNames with
  | some remote =>
    let merged := spreadMerge localNames remote
    { localWritten := some merged, remoteWritten := some merged }
  | none =>
    { localWritten := none,
      remoteWritten := if localNames.isEmpty then none else some localNames }

/-! ## Specification-side helpers for the history merge -/

/-- Records of a list of already-split lines, in scan order. -/
def recordsOfLines (parseLine : String → Option HistRec)
    (lines : List String) : List (String × HistEntry) :=
  lines.filterMap (lineRecord parseLine)

/-- Records of an association list carrying the identifier `sid`. -/
def keyRecords (rs : List (String × HistEntry)) (sid : String) :
    List HistEntry :=
  (rs.filter fun p => p.1 = sid).map Prod.snd

/-- Folding further records into an optional current winner with the
strict-greater replacement rule. -/
def combineOpt (o : Option HistEntry) (rs : List HistEntry) :
    Option HistEntry :=
  match o with
  | none => firstMaxRecord rs
  | some e => some (rs.foldl histBest e)

/-- The entries map built inside `mergeHistoryFiles` before sorting. -/
def entriesOfMerge (parseLine : String → Option HistRec)
    (localContent remoteContent : String) : List (String × HistEntry) :=
  parseHistoryContent parseLine
    (parseHistoryContent parseLine [] localContent) remoteContent

/-- Session identifier recoverable from a stored entry's raw line. -/
def keyOf (parseLine : String → Option HistRec) (e : HistEntry) : String :=
  match parseLine e.line with
  | some r => r.sessionId
  | none => ""

/-- Content `topContent` dominates `otherContent` when every record of the
latter finds, in the entries parsed from the former alone, an entry with the
same identifier and a timestamp at least as large. -/
def histDominates (parseLine : String → Option HistRec)
    (topContent otherContent : String) : Prop :=
  ∀ p ∈ lineRecords parseLine otherContent,
    ∃ ex, alistLookup p.1 (parseHistoryContent parseLine [] topContent) =
        some ex ∧ p.2.timestamp ≤ ex.timestamp

/-- Well-formedness of an entries map: identifiers are distinct and every
stored line is non-blank, newline-free, and re-parses to its own identifier
and timestamp. -/
def entriesWellFormed (parseLine : String → Option HistRec)
    (es : List (String × HistEntry)) : Prop :=
  (es.map Prod.fst).Nodup ∧
    ∀ p ∈ es, isBlankLine p.2.line = false ∧ '\n' ∉ p.2.line.data ∧
      parseLine p.2.line = some ⟨p.1, p.2.timestamp⟩

/-- Concrete table-driven line parser used only to exercise the
history-merge theorems on closed inputs. -/
def sampleParseLine (line : String) : Option HistRec :=
  if line = "a1" then some ⟨"a", 1⟩
  else if line = "a2" then some ⟨"a", 2⟩
  else if line = "b1" then some ⟨"b", 1⟩
  else if line = "c3" then some ⟨"c", 3⟩
  else none

/-! ## Helper lemmas -/

theorem strLength_append (a b : String) : (a ++ b).length = a.length + b.length := by
  cases a with
  | mk da =>
    cases b with
    | mk db => exact List.length_append da db

theorem strAssoc (a b c : String) : a ++ b ++ c = a ++ (b ++ c) := by
  cases a; cases b; cases c
  exact congrArg String.mk (List.append_assoc _ _ _)

theorem mem_ancestorPaths_length {x : String} :
    ∀ (rest : List String) (current : String),
      x ∈ ancestorPaths current rest → current.length < x.length := by
  intro rest
  induction rest with
  | nil => intro current h; simp [ancestorPaths] at h
  | cons part rest ih =>
    intro current h
    have hlen : current.length < (current ++ "/" ++ part).length := by
      rw [strLength_append, strLength_append]
      have : (0 : Nat) < ("/" : String).length := by decide
      omega
    simp only [ancestorPaths, List.mem_cons] at h
    rcases h with h | h
    · rw [h]; exact hlen
    · exact lt_trans hlen (ih _ h)

theorem ancestorPaths_nodup :
    ∀ (rest : List String) (current : String), (ancestorPaths current rest).Nodup := by
  intro rest
  induction rest with
  | nil => intro current; simp [ancestorPaths]
  | cons part rest ih =>
    intro current
    simp only [ancestorPaths, List.nodup_cons]
    refine ⟨fun hmem => ?_, ih _⟩
    have := mem_ancestorPaths_length rest (current ++ "/" ++ part) hmem
    omega

theorem filter_known_cons (known : List String) (cur : String) (rest : List String) :
    (ancestorPaths cur rest).filter (fun p => decide (p ∉ cur :: known)) =
      (ancestorPaths cur rest).filter fun p => decide (p ∉ known) := by
  refine List.filter_congr fun x hx => ?_
  have hne : x ≠ cur := by
    intro heq
    have := mem_ancestorPaths_length rest cur hx
    rw [heq] at this
    omega
  simp [List.mem_cons, hne]

theorem mkdirpGo_requests (st : String → Nat) :
    ∀ (parts known : List String) (current : String),
      (∀ p ∈ (ancestorPaths current parts).filter
          (fun p => decide (p ∉ known)), mkdirOk (st p) = true) →
      mkdirpGo st known current parts =
        ((ancestorPaths current parts).filter fun p => decide (p ∉ known),
         ((ancestorPaths current parts).filter
           fun p => decide (p ∉ known)).reverse ++ known,
         true) := by
  intro parts
  induction parts with
  | nil => intro known current _; simp [mkdirpGo, ancestorPaths]
  | cons part rest ih =>
    intro known current hall
    by_cases h : (current ++ "/" ++ part) ∈ known
    · have hL : mkdirpGo st known current (part :: rest) =
          mkdirpGo st known (current ++ "/" ++ part) rest := by
        simp [mkdirpGo, h]
      have hF : (ancestorPaths current (part :: rest)).filter
            (fun p => decide (p ∉ known)) =
          (ancestorPaths (current ++ "/" ++ part) rest).filter
            fun p => decide (p ∉ known) := by
        simp [ancestorPaths, List.filter_cons, h]
      rw [hF] at hall
      rw [hL, hF]
      exact ih known _ hall
    · have hF : (ancestorPaths current (part :: rest)).filter
            (fun p => decide (p ∉ known)) =
          (current ++ "/" ++ part) ::
            ((ancestorPaths (current ++ "/" ++ part) rest).filter
              fun p => decide (p ∉ known)) := by
        simp [ancestorPaths, List.filter_cons, h]
      have hok : mkdirOk (st (current ++ "/" ++ part)) = true := by
        refine hall _ ?_
        rw [hF]
        exact List.mem_cons_self _ _
      have hL : mkdirpGo st known current (part :: rest) =
          ((current ++ "/" ++ part) ::
            (mkdirpGo st ((current ++ "/" ++ part) :: known)
              (current ++ "/" ++ part) rest).1,
           (mkdirpGo st ((current ++ "/" ++ part) :: known)
              (current ++ "/" ++ part) rest).2) := by
        simp [mkdirpGo, h, hok]
      have hall' : ∀ p ∈ (ancestorPaths (current ++ "/" ++ part) rest).filter
          (fun p => decide (p ∉ (current ++ "/" ++ part) :: known)),
          mkdirOk (st p) = true := by
        intro p hp
        rw [filter_known_cons] at hp
        refine hall p ?_
        rw [hF]
        exact List.mem_cons_of_mem _ hp
      have hIH := ih ((current ++ "/" ++ part) :: known) (current ++ "/" ++ part) hall'
      rw [hL, hF, hIH, filter_known_cons]
      simp [List.append_assoc]

theorem mkdirpGo_fail (st : String → Nat) :
    ∀ (parts known : List String) (current : String) (T : List String)
      (q : String) (rest2 : List String),
      (ancestorPaths current parts).filter (fun p => decide (p ∉ known)) =
        T ++ q :: rest2 →
      (∀ p ∈ T, mkdirOk (st p) = true) → mkdirOk (st q) = false →
      mkdirpGo st known current parts = (T ++ [q], T.reverse ++ known, false) := by
  intro parts
  induction parts with
  | nil =>
    intro known current T q rest2 hF _ _
    simp [ancestorPaths] at hF
  | cons part rest ih =>
    intro known current T q rest2 hF hTok hqbad
    by_cases h : (current ++ "/" ++ part) ∈ known
    · have hL : mkdirpGo st known current (part :: rest) =
          mkdirpGo st known (current ++ "/" ++ part) rest := by
        simp [mkdirpGo, h]
      have hF' : (ancestorPaths (current ++ "/" ++ part) rest).filter
            (fun p => decide (p ∉ known)) = T ++ q :: rest2 := by
        rw [← hF]
        simp [ancestorPaths, List.filter_cons, h]
      rw [hL]
      exact ih known _ T q rest2 hF' hTok hqbad
    · have hF0 : (ancestorPaths current (part :: rest)).filter
            (fun p => decide (p ∉ known)) =
          (current ++ "/" ++ part) ::
            ((ancestorPaths (current ++ "/" ++ part) rest).filter
              fun p => decide (p ∉ known)) := by
        simp [ancestorPaths, List.filter_cons, h]
      rw [hF0] at hF
      cases T with
      | nil =>
        simp only [List.nil_append] at hF
        obtain ⟨hq, -⟩ := List.cons_eq_cons.mp hF
        have hcurbad : mkdirOk (st (current ++ "/" ++ part)) = false := by
          rw [hq]
          exact hqbad
        have hL : mkdirpGo st known current (part :: rest) =
            ([current ++ "/" ++ part], known, false) := by
          simp [mkdirpGo, h, hcurbad]
        rw [hL]
        simp [hq]
      | cons t T' =>
        rw [List.cons_append] at hF
        obtain ⟨ht, hrest⟩ := List.cons_eq_cons.mp hF
        have hok : mkdirOk (st (current ++ "/" ++ part)) = true := by
          rw [ht]
          exact hTok t (List.mem_cons_self _ _)
        have hL : mkdirpGo st known current (part :: rest) =
            ((current ++ "/" ++ part) ::
              (mkdirpGo st ((current ++ "/" ++ part) :: known)
                (current ++ "/" ++ part) rest).1,
             (mkdirpGo st ((current ++ "/" ++ part) :: known)
                (current ++ "/" ++ part) rest).2) := by
          simp [mkdirpGo, h, hok]
        have hF' : (ancestorPaths (current ++ "/" ++ part) rest).filter
              (fun p => decide (p ∉ (current ++ "/" ++ part) :: known)) =
            T' ++ q :: rest2 := by
          rw [filter_known_cons]
          exact hrest
        have hT'ok : ∀ p ∈ T', mkdirOk (st p) = true := fun p hp =>
          hTok p (List.mem_cons_of_mem _ hp)
        have hIH := ih ((current ++ "/" ++ part) :: known) (current ++ "/" ++ part)
          T' q rest2 hF' hT'ok hqbad
        rw [hL, hIH, ht]
        simp [List.append_assoc]

theorem mkdirp_requests_ok (st : String → Nat) (known : List String) (path : String)
    (hall : ∀ p ∈ (ancestorPaths "" (nonEmptySegments path)).filter
        (fun p => decide (p ∉ known)), mkdirOk (st p) = true) :
    mkdirp st known path =
      ((ancestorPaths "" (nonEmptySegments path)).filter
         fun p => decide (p ∉ known),
       ((ancestorPaths "" (nonEmptySegments path)).filter
         fun p => decide (p ∉ known)).reverse ++ known,
       true) :=
  mkdirpGo_requests st (nonEmptySegments path) known "" hall

theorem mkdirpSession_ok (st : String → Nat) (hok : ∀ p, mkdirOk (st p) = true) :
    ∀ (paths known : List String),
      ((mkdirpSession st known paths).1).Nodup ∧
        ∀ x ∈ (mkdirpSession st known paths).1, x ∉ known := by
  intro paths
  induction paths with
  | nil => intro known; simp [mkdirpSession]
  | cons p ps ih =>
    intro known
    simp only [mkdirpSession]
    obtain ⟨ihN, ihK⟩ := ih (mkdirp st known p).2.1
    have hcall := mkdirp_requests_ok st known p fun q _ => hok q
    have hreq : (mkdirp st known p).1 =
        (ancestorPaths "" (nonEmptySegments p)).filter
          fun q => decide (q ∉ known) := by
      rw [hcall]
    have hknown2 : (mkdirp st known p).2.1 =
        ((mkdirp st known p).1).reverse ++ known := by
      rw [hcall]
    constructor
    · refine List.Nodup.append ?_ ihN ?_
      · rw [hreq]
        exact (ancestorPaths_nodup _ _).filter _
      · intro x hx1 hx2
        have := ihK x hx2
        rw [hknown2] at this
        exact this (List.mem_append_left _ (List.mem_reverse.mpr hx1))
    · intro x hx
      rcases List.mem_append.mp hx with hx | hx
      · rw [hreq] at hx
        have hmem := List.mem_filter.mp hx
        exact of_decide_eq_true hmem.2
      · have := ihK x hx
        rw [hknown2] at this
        exact fun hk => this (List.mem_append_right _ hk)

/-! ## Claim theorems: WebDAV client -/

/-- Claim C5 (rate-limit handling).  (1) When an attempt is answered 503 and
retries remain, the client doubles `minInterval` capped at 10000 — the new
pace persisting into the rest of the call and, through the mutated field,
all later requests — appends the capped exponential backoff delay
`min(3000 * 2^attempt, 30000)`, and retries.  (2) When every attempt is
answered 503 the call surfaces the 503 after exactly `maxRetries` backoff
waits (default 3).  (3) Scenario: 503 twice then 201 → the request succeeds
with result 201, the pacing interval having been raised from 1500 to 6000
with backoff waits 3000 and 6000.  (4) The raised interval exceeds the
initial one, and status 201 makes a PUT succeed. -/
theorem rateLimit_retry_spec :
    (∀ (respOf : Nat → Nat) maxRetries attempt minInterval delays rem,
        respOf attempt = 503 → attempt < maxRetries →
        requestGo respOf maxRetries attempt minInterval delays (rem + 1) =
          requestGo respOf maxRetries (attempt + 1)
            (min (minInterval * 2) 10000)
            (delays ++ [min (3000 * 2 ^ attempt) 30000]) rem) ∧
    (∀ (respOf : Nat → Nat) maxRetries minInterval,
        (∀ a, respOf a = 503) →
        ∃ minInterval' ds,
          webdavRequest respOf maxRetries minInterval =
            some (503, minInterval', ds) ∧ ds.length = maxRetries) ∧
    webdavRequest (fun a => if a < 2 then 503 else 201) 3 1500 =
      some (201, 6000, [3000, 6000]) ∧
    1500 < 6000 ∧ uploadOk 201 = true := by
  refine ⟨?_, ?_, by decide, by decide, by decide⟩
  · intro respOf maxRetries attempt minInterval delays rem h1 h2
    simp [requestGo, h1, h2]
  · intro respOf maxRetries minInterval hall
    have key : ∀ (rem attempt minInterval : Nat) (delays : List Nat),
        attempt + rem = maxRetries + 1 → 1 ≤ rem →
        ∃ mi ds, requestGo respOf maxRetries attempt minInterval delays rem =
          some (503, mi, ds) ∧ ds.length = delays.length + (rem - 1) := by
      intro rem
      induction rem with
      | zero => intro attempt minInterval delays _ h2; omega
      | succ r ihr =>
        intro attempt minInterval delays h1 _
        cases r with
        | zero =>
          have hA : attempt = maxRetries := by omega
          subst hA
          refine ⟨minInterval, delays, ?_, by omega⟩
          simp [requestGo, hall]
        | succ r' =>
          have hlt : attempt < maxRetries := by omega
          obtain ⟨mi, ds, heq, hlen⟩ :=
            ihr (attempt + 1) (min (minInterval * 2) 10000)
              (delays ++ [min (3000 * 2 ^ attempt) 30000]) (by omega) (by omega)
          refine ⟨mi, ds, ?_, by simp at hlen; omega⟩
          rw [show requestGo respOf maxRetries attempt minInterval delays (r' + 1 + 1) =
              requestGo respOf maxRetries (attempt + 1) (min (minInterval * 2) 10000)
                (delays ++ [min (3000 * 2 ^ attempt) 30000]) (r' + 1) by
            simp [requestGo, hall attempt, hlt]]
          exact heq
    obtain ⟨mi, ds, heq, hlen⟩ := key (maxRetries + 1) 0 minInterval [] (by omega) (by omega)
    exact ⟨mi, ds, heq, by simpa using hlen⟩

/-- Witness for `rateLimit_retry_spec` at concrete inputs. -/
theorem rateLimit_retry_witness :
    requestGo (fun _ => 503) 3 0 1500 [] 4 =
      requestGo (fun _ => 503) 3 1 (min (1500 * 2) 10000)
        ([] ++ [min (3000 * 2 ^ 0) 30000]) 3 ∧
    ∃ minInterval' ds,
      webdavRequest (fun _ => 503) 3 1500 = some (503, minInterval', ds) ∧
        ds.length = 3 :=
  ⟨rateLimit_retry_spec.1 (fun _ => 503) 3 0 1500 [] 3 rfl (by decide),
   rateLimit_retry_spec.2.1 (fun _ => 503) 3 1500 fun _ => rfl⟩

/-- Counterexample to claim C9 as stated.  On a client whose MKCOL requests
are all answered 500, the first `mkdirp("/hosts/h1")` call issues MKCOL for
`/hosts`, `mkdir` throws, and — because the source adds to `knownDirs` only
after `mkdir` has returned — the path is not cached; the next `mkdirp` call
of the same client session therefore issues MKCOL for `/hosts` again, so the
session's request list targets the `/hosts` path twice and the claimed
session-level at-most-one-MKCOL-per-path property fails. -/
theorem mkdirpRetry_counterexample :
    (mkdirpSession (fun _ => 500) [] ["/hosts/h1", "/hosts/h1"]).1 =
      ["/hosts", "/hosts"] ∧
    ¬ ((mkdirpSession (fun _ => 500) [] ["/hosts/h1", "/hosts/h1"]).1).Nodup := by
  decide

/-- Claim C9 (idempotent directory creation), amended.  (1) `mkdir` succeeds
on 201 and on 405 and throws on any other status at or above 400.  (2) When
every not-yet-cached cumulative ancestor path of the non-empty segments is
answered a success status, one `mkdirp` call issues exactly one MKCOL per
such path, in order, skipping the cached ones, caches every requested path
and completes.  (3) When a failing path is reached, the walk stops right
after its MKCOL: the requests are the successfully created paths followed by
the failing one, and only the successful ones enter the cache — the failed
path stays uncached, so a later `mkdirp` call of the same client may request
it again.  (4) Consequently the at-most-one-MKCOL-per-path guarantee is
session-level only for sessions in which every MKCOL succeeds: then the
request list of any call sequence from the empty cache is duplicate-free. -/
theorem mkdirp_amended_spec :
    (mkdirOk 201 = true ∧ mkdirOk 405 = true ∧
      ∀ s, 400 ≤ s → s ≠ 405 → mkdirOk s = false) ∧
    (∀ (st : String → Nat) (known : List String) (path : String),
        (∀ p ∈ (ancestorPaths "" (nonEmptySegments path)).filter
            (fun p => decide (p ∉ known)), mkdirOk (st p) = true) →
        mkdirp st known path =
          ((ancestorPaths "" (nonEmptySegments path)).filter
             fun p => decide (p ∉ known),
           ((ancestorPaths "" (nonEmptySegments path)).filter
             fun p => decide (p ∉ known)).reverse ++ known,
           true)) ∧
    (∀ (st : String → Nat) (known : List String) (path : String)
        (T : List String) (q : String) (rest2 : List String),
        (ancestorPaths "" (nonEmptySegments path)).filter
            (fun p => decide (p ∉ known)) = T ++ q :: rest2 →
        (∀ p ∈ T, mkdirOk (st p) = true) → mkdirOk (st q) = false →
        mkdirp st known path = (T ++ [q], T.reverse ++ known, false)) ∧
    (∀ (st : String → Nat), (∀ p, mkdirOk (st p) = true) →
        ∀ paths : List String, ((mkdirpSession st [] paths).1).Nodup) := by
  refine ⟨⟨by decide, by decide, ?_⟩, ?_, ?_, ?_⟩
  · intro s h1 h2
    have h3 : s ≠ 201 := by omega
    simp [mkdirOk, h1, h2, h3]
  · intro st known path hall
    exact mkdirp_requests_ok st known path hall
  · intro st known path T q rest2 hF hT hq
    exact mkdirpGo_fail st (nonEmptySegments path) known "" T q rest2 hF hT hq
  · intro st hok paths
    exact (mkdirpSession_ok st hok paths []).1

/-- Witness for `mkdirp_amended_spec` at concrete inputs: a fully successful
call on a warm cache, a call aborted by a 500 on its second path (which is
requested but left uncached), and a duplicate-free session of successful
calls. -/
theorem mkdirp_amended_witness :
    mkdirOk 500 = false ∧
    mkdirp (fun _ => 201) ["/hosts"] "/hosts/h1/projects" =
      (["/hosts/h1", "/hosts/h1/projects"],
       ["/hosts/h1/projects", "/hosts/h1", "/hosts"], true) ∧
    mkdirp (fun p => if p = "/hosts/h1" then 500 else 201) [] "/hosts/h1/projects" =
      (["/hosts", "/hosts/h1"], ["/hosts"], false) ∧
    ((mkdirpSession (fun _ => 201) []
        ["/hosts/h1/projects", "/hosts/h1/projects"]).1).Nodup := by
  refine ⟨mkdirp_amended_spec.1.2.2 500 (by decide) (by decide), ?_, ?_,
    mkdirp_amended_spec.2.2.2 (fun _ => 201) (fun p => rfl)
      ["/hosts/h1/projects", "/hosts/h1/projects"]⟩
  · rw [mkdirp_amended_spec.2.1 (fun _ => 201) ["/hosts"] "/hosts/h1/projects"
      fun p _ => rfl]
    decide
  · rw [mkdirp_amended_spec.2.2.1 (fun p => if p = "/hosts/h1" then 500 else 201)
      [] "/hosts/h1/projects" ["/hosts"] "/hosts/h1" ["/hosts/h1/projects"]
      (by decide) (by decide) (by decide)]
    decide

/-- Claim C10 (implicit; `exists`/`testConnection` error collapsing).  The
check returns `true` exactly when the PROPFIND completed with status 207 or
200; it returns `false` — and never throws, being a total function — on
every other status and on every thrown transport error, and `testConnection`
performs the identical check; a transport error is therefore
indistinguishable at this interface from a 404 "not found" answer. -/
theorem existsConnection_spec :
    (∀ outcome, existsCheck outcome = true ↔
        ∃ s, outcome = Except.ok s ∧ (s = 207 ∨ s = 200)) ∧
    (∀ e, existsCheck (Except.error e) = false) ∧
    (∀ s, s ≠ 207 → s ≠ 200 → existsCheck (Except.ok s) = false) ∧
    (∀ outcome, testConnectionCheck outcome = existsCheck outcome) ∧
    (∀ e, existsCheck (Except.error e) = existsCheck (Except.ok 404)) := by
  refine ⟨?_, fun e => rfl, ?_, ?_, fun e => rfl⟩
  · intro outcome
    cases outcome with
    | error e => simp [existsCheck]
    | ok s =>
      by_cases h : s = 207 ∨ s = 200
      · simp [existsCheck, h]
      · simp [existsCheck, h]
  · intro s h1 h2
    have h : ¬ (s = 207 ∨ s = 200) := by tauto
    simp [existsCheck, h]
  · intro outcome
    cases outcome <;> rfl

/-- Witness for `existsConnection_spec` at concrete inputs. -/
theorem existsConnection_witness :
    existsCheck (Except.ok 207) = true ∧ existsCheck (Except.ok 503) = false :=
  ⟨(existsConnection_spec.1 (Except.ok 207)).mpr ⟨207, rfl, Or.inl rfl⟩,
   existsConnection_spec.2.2.1 503 (by decide) (by decide)⟩

/-! ## Upload planning and local scan -/

theorem alist_key_unique {β : Type} :
    ∀ {l : List (String × β)}, (l.map Prod.fst).Nodup →
      ∀ {k : String} {a b : β}, (k, a) ∈ l → (k, b) ∈ l → a = b := by
  intro l
  induction l with
  | nil => intro _ k a b ha; simp at ha
  | cons p rest ih =>
    intro h k a b ha hb
    simp only [List.map_cons, List.nodup_cons] at h
    rcases List.mem_cons.mp ha with ha | ha <;>
      rcases List.mem_cons.mp hb with hb | hb
    · rw [← ha] at hb
      exact (congrArg Prod.snd hb).symm
    · exfalso
      apply h.1
      rw [← ha]
      exact List.mem_map.mpr ⟨(k, b), hb, rfl⟩
    · exfalso
      apply h.1
      rw [← hb]
      exact List.mem_map.mpr ⟨(k, a), ha, rfl⟩
    · exact ih h.2 ha hb

theorem mem_computeUploadChanges {getEntry : String → Option ManifestEntry}
    {localFiles : List (String × LocalFileInfo)}
    {remoteFiles : String → Option WebDavFileInfo} {c : FileChange} :
    c ∈ computeUploadChanges getEntry localFiles remoteFiles ↔
      ∃ p ∈ localFiles,
        (remoteFiles p.1 = none ∨ getEntry p.1 = none ∨
          ∃ m, getEntry p.1 = some m ∧
            (p.2.size ≠ m.size ∨ p.2.mtimeMs > m.mtimeMs + 1000)) ∧
        c = { relativePath := p.1, localPath := some p.2.fullPath,
              action := SyncAction.upload, localMtime := some p.2.mtimeMs,
              remoteMtime := none, size := some p.2.size } := by
  rw [computeUploadChanges, List.mem_filterMap]
  constructor
  · rintro ⟨p, hp, hfp⟩
    refine ⟨p, hp, ?_⟩
    simp only at hfp
    split at hfp
    · next hrem =>
      simp only [Option.some.injEq] at hfp
      exact ⟨Or.inl hrem, hfp.symm⟩
    · next r hrem =>
      split at hfp
      · next m hent =>
        split at hfp
        · next hcond =>
          simp only [Option.some.injEq] at hfp
          exact ⟨Or.inr (Or.inr ⟨m, hent, hcond⟩), hfp.symm⟩
        · exact absurd hfp (by simp)
      · next hent =>
        simp only [Option.some.injEq] at hfp
        exact ⟨Or.inr (Or.inl hent), hfp.symm⟩
  · rintro ⟨p, hp, hcond, hc⟩
    refine ⟨p, hp, ?_⟩
    simp only
    split
    · rw [hc]
    · next r hrem =>
      split
      · next m hent =>
        rcases hcond with h1 | h1 | ⟨m', hm', h1⟩
        · rw [hrem] at h1; exact absurd h1 (by simp)
        · rw [hent] at h1; exact absurd h1 (by simp)
        · rw [hent] at hm'
          have hmm : m = m' := by simpa using hm'
          rw [← hmm] at h1
          rw [if_pos h1, hc]
      · rw [hc]

theorem mem_scanProjectFiles {hostname projectDir fullProjectDir : String}
    {now : Int} {entries : List DirEntry} {q : String × LocalFileInfo} :
    q ∈ scanProjectFiles hostname projectDir fullProjectDir now entries ↔
      ∃ e ∈ entries,
        strEndsWith e.name ".jsonl" = true ∧
        strStartsWith e.name "agent-" = false ∧
        e.isDirectory = false ∧ e.size ≠ 0 ∧ 30000 ≤ now - e.mtimeMs ∧
        q = (localRelativePath hostname projectDir e.name,
             { fullPath := fullProjectDir ++ "/" ++ e.name,
               size := e.size, mtimeMs := e.mtimeMs }) := by
  rw [scanProjectFiles, List.mem_filterMap]
  constructor
  · rintro ⟨e, he, hfe⟩
    obtain ⟨he, hname⟩ := List.mem_filter.mp he
    simp only [Bool.and_eq_true, Bool.not_eq_true'] at hname
    refine ⟨e, he, hname.1, hname.2, ?_⟩
    by_cases hd : e.isDirectory = true ∨ e.size = 0
    · rw [if_pos hd] at hfe
      exact absurd hfe (by simp)
    · rw [if_neg hd] at hfe
      by_cases hm : now - e.mtimeMs < 30000
      · rw [if_pos hm] at hfe
        exact absurd hfe (by simp)
      · rw [if_neg hm] at hfe
        push_neg at hd
        simp only [Option.some.injEq] at hfe
        exact ⟨Bool.not_eq_true _ ▸ (by simpa using hd.1), hd.2, by omega, hfe.symm⟩
  · rintro ⟨e, he, h1, h2, h3, h4, h5, hq⟩
    refine ⟨e, List.mem_filter.mpr ⟨he, by simp [h1, h2]⟩, ?_⟩
    have hd : ¬ (e.isDirectory = true ∨ e.size = 0) := by
      rw [h3]; simp [h4]
    rw [if_neg hd, if_neg (by omega), hq]

theorem mem_scanLocalFiles {hostname : String} {now : Int}
    {projects : List (String × String × List DirEntry)}
    {q : String × LocalFileInfo} :
    q ∈ scanLocalFiles hostname now projects ↔
      ∃ pr ∈ projects,
        q ∈ scanProjectFiles hostname pr.1 pr.2.1 now pr.2.2 := by
  simp [scanLocalFiles, List.mem_flatMap]

/-- Claim C1 (upload planning).  For a scanned local file, an upload is
planned exactly when no remote counterpart exists, or no manifest entry
exists, or the entry's size differs from the current size, or the current
modification time exceeds the recorded one by more than 1000 ms; and a file
with a remote counterpart whose manifest entry has the same size and a
recorded modification time within 1000 ms in either direction is not
re-uploaded. -/
theorem uploadPlanning_spec :
    ∀ (getEntry : String → Option ManifestEntry)
      (localFiles : List (String × LocalFileInfo))
      (remoteFiles : String → Option WebDavFileInfo)
      (rel : String) (lf : LocalFileInfo),
      (localFiles.map Prod.fst).Nodup →
      (rel, lf) ∈ localFiles →
      ((∃ c ∈ computeUploadChanges getEntry localFiles remoteFiles,
          c.relativePath = rel) ↔
        (remoteFiles rel = none ∨ getEntry rel = none ∨
          ∃ m, getEntry rel = some m ∧
            (lf.size ≠ m.size ∨ lf.mtimeMs > m.mtimeMs + 1000))) ∧
      (∀ (r : WebDavFileInfo) (m : ManifestEntry),
          remoteFiles rel = some r → getEntry rel = some m →
          m.size = lf.size →
          m.mtimeMs - 1000 ≤ lf.mtimeMs → lf.mtimeMs ≤ m.mtimeMs + 1000 →
          ∀ c ∈ computeUploadChanges getEntry localFiles remoteFiles,
            c.relativePath ≠ rel) := by
  intro getEntry localFiles remoteFiles rel lf hnodup hmem
  have hiff : (∃ c ∈ computeUploadChanges getEntry localFiles remoteFiles,
      c.relativePath = rel) ↔
      (remoteFiles rel = none ∨ getEntry rel = none ∨
        ∃ m, getEntry rel = some m ∧
          (lf.size ≠ m.size ∨ lf.mtimeMs > m.mtimeMs + 1000)) := by
    constructor
    · rintro ⟨c, hc, hcrel⟩
      obtain ⟨p, hp, hcond, hcdef⟩ := mem_computeUploadChanges.mp hc
      have hp1 : p.1 = rel := by rw [← hcrel, hcdef]
      have hp2 : p.2 = lf := by
        refine alist_key_unique hnodup ?_ hmem
        rw [← hp1]
        exact hp
      rw [hp1, hp2] at hcond
      exact hcond
    · intro hcond
      refine ⟨_, mem_computeUploadChanges.mpr ⟨(rel, lf), hmem, hcond, rfl⟩, rfl⟩
  refine ⟨hiff, ?_⟩
  intro r m hr hm hsize hlo hhi c hc hcrel
  have := hiff.mp ⟨c, hc, hcrel⟩
  rcases this with h | h | ⟨m', hm', h⟩
  · rw [hr] at h; exact absurd h (by simp)
  · rw [hm] at h; exact absurd h (by simp)
  · rw [hm] at hm'
    have hmm : m = m' := by simpa using hm'
    rw [← hmm] at h
    rcases h with h | h
    · exact h hsize.symm
    · omega

/-- Witness for `uploadPlanning_spec` at concrete inputs: a fresh file with
no remote counterpart is planned, and an unchanged file within the 1000 ms
tolerance is not planned. -/
theorem uploadPlanning_witness :
    (∃ c ∈ computeUploadChanges (fun _ => none)
        [("hosts/h1/projects/p1/s1.jsonl", ⟨"/claude/projects/p1/s1.jsonl", 500, 1500⟩)]
        (fun _ => none), c.relativePath = "hosts/h1/projects/p1/s1.jsonl") ∧
    (∀ c ∈ computeUploadChanges (fun _ => some ⟨500, 1000, 2000⟩)
        [("hosts/h1/projects/p1/s1.jsonl", ⟨"/claude/projects/p1/s1.jsonl", 500, 1500⟩)]
        (fun _ => some ⟨"s1.jsonl", 500, 900, false⟩),
      c.relativePath ≠ "hosts/h1/projects/p1/s1.jsonl") :=
  ⟨((uploadPlanning_spec (fun _ => none) _ (fun _ => none)
      "hosts/h1/projects/p1/s1.jsonl" ⟨"/claude/projects/p1/s1.jsonl", 500, 1500⟩
      (by decide) (by decide)).1).mpr (Or.inl rfl),
   (uploadPlanning_spec (fun _ => some ⟨500, 1000, 2000⟩) _
      (fun _ => some ⟨"s1.jsonl", 500, 900, false⟩)
      "hosts/h1/projects/p1/s1.jsonl" ⟨"/claude/projects/p1/s1.jsonl", 500, 1500⟩
      (by decide) (by decide)).2 ⟨"s1.jsonl", 500, 900, false⟩ ⟨500, 1000, 2000⟩
      rfl rfl (by decide) (by decide) (by decide)⟩

/-- Claim C8 (local scan filter).  The files kept by the per-project scan
are exactly the directory entries whose name ends in `.jsonl` and does not
start with `agent-`, that are not directories, have non-zero size, and whose
modification time is at least 30000 ms before `now`; consequently every
planned upload refers to a scanned file whose modification time is at least
30 seconds in the past, so a file modified within the last 30 seconds never
appears in an upload plan. -/
theorem localScanFilter_spec :
    (∀ (hostname projectDir fullProjectDir : String) (now : Int)
        (entries : List DirEntry) (q : String × LocalFileInfo),
        q ∈ scanProjectFiles hostname projectDir fullProjectDir now entries ↔
          ∃ e ∈ entries,
            strEndsWith e.name ".jsonl" = true ∧
            strStartsWith e.name "agent-" = false ∧
            e.isDirectory = false ∧ e.size ≠ 0 ∧ 30000 ≤ now - e.mtimeMs ∧
            q = (localRelativePath hostname projectDir e.name,
                 { fullPath := fullProjectDir ++ "/" ++ e.name,
                   size := e.size, mtimeMs := e.mtimeMs })) ∧
    (∀ (hostname : String) (now : Int)
        (projects : List (String × String × List DirEntry))
        (getEntry : String → Option ManifestEntry)
        (remoteFiles : String → Option WebDavFileInfo),
        ∀ c ∈ computeUploadChanges getEntry
            (scanLocalFiles hostname now projects) remoteFiles,
          ∃ lf, (c.relativePath, lf) ∈ scanLocalFiles hostname now projects ∧
            30000 ≤ now - lf.mtimeMs) := by
  constructor
  · intro hostname projectDir fullProjectDir now entries q
    exact mem_scanProjectFiles
  · intro hostname now projects getEntry remoteFiles c hc
    obtain ⟨p, hp, _, hcdef⟩ := mem_computeUploadChanges.mp hc
    obtain ⟨pr, hpr, hscan⟩ := mem_scanLocalFiles.mp hp
    obtain ⟨e, _, _, _, _, _, hmt, hq⟩ := mem_scanProjectFiles.mp hscan
    refine ⟨p.2, ?_, ?_⟩
    · have : c.relativePath = p.1 := by rw [hcdef]
      rw [this]
      exact hp
    · have hsnd : p.2.mtimeMs = e.mtimeMs := by rw [hq]
      omega

/-- Witness for `localScanFilter_spec` at concrete inputs: a 3-day-old file
is scanned, a file modified 10 s ago is not, and the upload plan over the
scan only contains files idle for at least 30 s. -/
theorem localScanFilter_witness :
    (("hosts/h1/projects/p1/s1.jsonl",
        ({ fullPath := "/claude/projects/p1/s1.jsonl", size := 500,
           mtimeMs := 0 } : LocalFileInfo)) ∈
      scanProjectFiles "h1" "p1" "/claude/projects/p1" 259200000
        [⟨"s1.jsonl", false, 500, 0⟩, ⟨"s2.jsonl", false, 400, 259190000⟩]) ∧
    (∀ c ∈ computeUploadChanges (fun _ => none)
        (scanLocalFiles "h1" 259200000
          [("p1", "/claude/projects/p1",
            [⟨"s1.jsonl", false, 500, 0⟩, ⟨"s2.jsonl", false, 400, 259190000⟩])])
        (fun _ => none),
      ∃ lf, (c.relativePath, lf) ∈ scanLocalFiles "h1" 259200000
          [("p1", "/claude/projects/p1",
            [⟨"s1.jsonl", false, 500, 0⟩, ⟨"s2.jsonl", false, 400, 259190000⟩])] ∧
        30000 ≤ 259200000 - lf.mtimeMs) :=
  ⟨(localScanFilter_spec.1 "h1" "p1" "/claude/projects/p1" 259200000
      [⟨"s1.jsonl", false, 500, 0⟩, ⟨"s2.jsonl", false, 400, 259190000⟩]
      _).mpr ⟨⟨"s1.jsonl", false, 500, 0⟩, by decide, by decide, by decide,
        rfl, by decide, by decide, by decide⟩,
   localScanFilter_spec.2 "h1" 259200000
     [("p1", "/claude/projects/p1",
       [⟨"s1.jsonl", false, 500, 0⟩, ⟨"s2.jsonl", false, 400, 259190000⟩])]
     (fun _ => none) (fun _ => none)⟩

/-! ## Download planning and host namespaces -/

theorem sep_split_unique {sep : Char} :
    ∀ {a : List Char} {b r s : List Char}, sep ∉ a → sep ∉ b →
      a ++ sep :: r = b ++ sep :: s → a = b ∧ r = s := by
  intro a
  induction a with
  | nil =>
    intro b r s _ hb heq
    cases b with
    | nil => simpa using heq
    | cons y ys =>
      exfalso
      simp only [List.nil_append, List.cons_append, List.cons.injEq] at heq
      exact hb (heq.1 ▸ List.mem_cons_self y ys)
  | cons x xs ih =>
    intro b r s ha hb heq
    cases b with
    | nil =>
      exfalso
      simp only [List.nil_append, List.cons_append, List.cons.injEq] at heq
      exact ha (heq.1 ▸ List.mem_cons_self x xs)
    | cons y ys =>
      simp only [List.cons_append, List.cons.injEq] at heq
      have hxs : sep ∉ xs := fun h => ha (List.mem_cons_of_mem x h)
      have hys : sep ∉ ys := fun h => hb (List.mem_cons_of_mem y h)
      obtain ⟨h1, h2⟩ := ih hxs hys heq.2
      exact ⟨by rw [heq.1, h1], h2⟩

theorem needDownload_iff {cacheExists : String → Bool}
    {getEntry : String → Option ManifestEntry}
    {relativePath : String} {info : WebDavFileInfo} :
    needDownload cacheExists getEntry relativePath info = true ↔
      (cacheExists relativePath = false ∨ getEntry relativePath = none ∨
        ∃ m, getEntry relativePath = some m ∧
          info.lastModified > m.syncedAt + 1000) := by
  rw [needDownload]
  by_cases hc : cacheExists relativePath
  · rw [if_neg (by simp [hc])]
    rcases hent : getEntry relativePath with _ | m
    · simp [hc]
    · by_cases hlt : info.lastModified > m.syncedAt + 1000
      · simp [hc, hlt, hent]
      · simp only [if_neg hlt, hc, Bool.true_eq_false, false_or]
        constructor
        · intro h; exact absurd h (by simp)
        · rintro (h | ⟨m', hm', h⟩)
          · exact absurd h (by simp)
          · have : m = m' := by simpa using hm'
            rw [← this] at h
            exact absurd h hlt
  · rw [if_pos (by simp [hc])]
    simp [Bool.eq_false_iff.mpr hc]

theorem mem_computeDownloadChanges {hostname : String}
    {otherHosts : List String}
    {hostFiles : String → List (String × WebDavFileInfo)}
    {cacheExists : String → Bool} {getEntry : String → Option ManifestEntry}
    {c : FileChange} :
    c ∈ computeDownloadChanges hostname otherHosts hostFiles cacheExists
        getEntry ↔
      ∃ host ∈ otherHosts, host ≠ hostname ∧
        ∃ p ∈ hostFiles host,
          needDownload cacheExists getEntry p.1 p.2 = true ∧
          c = { relativePath := p.1, localPath := none,
                action := SyncAction.download, localMtime := none,
                remoteMtime := some p.2.lastModified, size := some p.2.size } := by
  rw [computeDownloadChanges, List.mem_flatMap]
  constructor
  · rintro ⟨host, hhost, hc⟩
    by_cases heq : host = hostname
    · rw [if_pos heq] at hc
      exact absurd hc (by simp)
    · rw [if_neg heq] at hc
      obtain ⟨p, hp, hfp⟩ := List.mem_filterMap.mp hc
      simp only at hfp
      by_cases hneed : needDownload cacheExists getEntry p.1 p.2 = true
      · rw [if_pos hneed] at hfp
        simp only [Option.some.injEq] at hfp
        exact ⟨host, hhost, heq, p, hp, hneed, hfp.symm⟩
      · rw [if_neg hneed] at hfp
        exact absurd hfp (by simp)
  · rintro ⟨host, hhost, hne, p, hp, hneed, hc⟩
    refine ⟨host, hhost, ?_⟩
    rw [if_neg hne]
    refine List.mem_filterMap.mpr ⟨p, hp, ?_⟩
    simp only
    rw [if_pos hneed, hc]

theorem mem_scanHostRemoteFiles {host : String}
    {projectItems : List WebDavFileInfo}
    {sessionItems : String → List WebDavFileInfo}
    {q : String × WebDavFileInfo} :
    q ∈ scanHostRemoteFiles host projectItems sessionItems ↔
      ∃ d ∈ projectItems, d.isDirectory = true ∧
        ∃ f ∈ sessionItems (stripTrailingSlash d.path),
          f.isDirectory = false ∧ strEndsWith f.path ".jsonl" = true ∧
          strStartsWith f.path "agent-" = false ∧
          q = ("hosts/" ++ host ++ "/projects/" ++ stripTrailingSlash d.path
                ++ "/" ++ f.path, f) := by
  rw [scanHostRemoteFiles, List.mem_flatMap]
  constructor
  · rintro ⟨d, hd, hq⟩
    by_cases hdir : d.isDirectory = true
    · rw [if_neg (by simp [hdir])] at hq
      obtain ⟨f, hf, hff⟩ := List.mem_filterMap.mp hq
      by_cases hcond : f.isDirectory = true ∨ ¬ strEndsWith f.path ".jsonl" = true
          ∨ strStartsWith f.path "agent-" = true
      · rw [if_pos hcond] at hff
        exact absurd hff (by simp)
      · rw [if_neg hcond] at hff
        push_neg at hcond
        simp only [Option.some.injEq] at hff
        refine ⟨d, hd, hdir, f, hf, ?_, ?_, ?_, hff.symm⟩
        · simpa using hcond.1
        · simpa using hcond.2.1
        · simpa using hcond.2.2
    · rw [if_pos (by simpa using hdir)] at hq
      exact absurd hq (by simp)
  · rintro ⟨d, hd, hdir, f, hf, h1, h2, h3, hq⟩
    refine ⟨d, hd, ?_⟩
    rw [if_neg (by simp [hdir])]
    refine List.mem_filterMap.mpr ⟨f, hf, ?_⟩
    rw [if_neg (by simp [h1, h2, h3]), hq]

/-- Claim C2 (download planning).  (1) A change is planned exactly for a
file of a host other than this machine (hosts equal to this hostname are
skipped) such that no cache copy exists at the mirrored path, or no manifest
entry exists, or the manifest `syncedAt` predates the remote last-modified
time by more than 1000 ms.  (2) When host listings come from
`scanHostRemoteFiles`, no planned download path ever lies under this
machine's own `hosts/{hostname}/` namespace (host directory names contain
no slash). -/
theorem downloadPlanning_spec :
    (∀ (hostname : String) (otherHosts : List String)
        (hostFiles : String → List (String × WebDavFileInfo))
        (cacheExists : String → Bool)
        (getEntry : String → Option ManifestEntry) (c : FileChange),
        c ∈ computeDownloadChanges hostname otherHosts hostFiles cacheExists
            getEntry ↔
          ∃ host ∈ otherHosts, host ≠ hostname ∧
            ∃ p ∈ hostFiles host,
              (cacheExists p.1 = false ∨ getEntry p.1 = none ∨
                ∃ m, getEntry p.1 = some m ∧
                  p.2.lastModified > m.syncedAt + 1000) ∧
              c = { relativePath := p.1, localPath := none,
                    action := SyncAction.download, localMtime := none,
                    remoteMtime := some p.2.lastModified,
                    size := some p.2.size }) ∧
    (∀ (hostname : String) (otherHosts : List String)
        (projectItems : String → List WebDavFileInfo)
        (sessionItems : String → String → List WebDavFileInfo)
        (cacheExists : String → Bool)
        (getEntry : String → Option ManifestEntry) (c : FileChange)
        (rest : String),
        '/' ∉ hostname.data → (∀ h ∈ otherHosts, '/' ∉ h.data) →
        c ∈ computeDownloadChanges hostname otherHosts
            (fun h => scanHostRemoteFiles h (projectItems h) (sessionItems h))
            cacheExists getEntry →
        c.relativePath ≠ "hosts/" ++ hostname ++ "/" ++ rest) := by
  constructor
  · intro hostname otherHosts hostFiles cacheExists getEntry c
    rw [mem_computeDownloadChanges]
    constructor
    · rintro ⟨host, hh, hne, p, hp, hneed, hc⟩
      exact ⟨host, hh, hne, p, hp, needDownload_iff.mp hneed, hc⟩
    · rintro ⟨host, hh, hne, p, hp, hneed, hc⟩
      exact ⟨host, hh, hne, p, hp, needDownload_iff.mpr hneed, hc⟩
  · intro hostname otherHosts projectItems sessionItems cacheExists getEntry
      c rest hslash hhosts hc heqpath
    obtain ⟨host, hh, hne, p, hp, _, hcdef⟩ :=
      mem_computeDownloadChanges.mp hc
    obtain ⟨d, _, _, f, _, _, _, _, hq⟩ := mem_scanHostRemoteFiles.mp hp
    have hrel : c.relativePath =
        "hosts/" ++ host ++ "/projects/" ++ stripTrailingSlash d.path
          ++ "/" ++ f.path := by
      rw [hcdef, hq]
    rw [hrel] at heqpath
    have hd := congrArg String.data heqpath
    have dHosts : ("hosts/" : String).data = ['h', 'o', 's', 't', 's', '/'] := rfl
    have dProj : ("/projects/" : String).data =
        ['/', 'p', 'r', 'o', 'j', 'e', 'c', 't', 's', '/'] := rfl
    have dSlash : ("/" : String).data = ['/'] := rfl
    simp only [String.data_append, List.append_assoc, dHosts, dProj, dSlash,
      List.cons_append, List.nil_append, List.cons.injEq, true_and] at hd
    have hd2 : host.data ++ '/' ::
        ("projects/".data ++ ((stripTrailingSlash d.path).data
          ++ '/' :: f.path.data)) = hostname.data ++ '/' :: rest.data := by
      have dProj2 : ("projects/" : String).data =
          ['p', 'r', 'o', 'j', 'e', 'c', 't', 's', '/'] := rfl
      simpa [dProj2, List.append_assoc] using hd
    have := sep_split_unique (hhosts host hh) hslash hd2
    exact hne (String.ext this.1)

/-- Witness for `downloadPlanning_spec` at concrete inputs: a fresh remote
file of another host with no cache copy is planned for download, and no
planned path lies under this machine's namespace. -/
theorem downloadPlanning_witness :
    (({ relativePath := "hosts/h2/projects/p2/s2.jsonl", localPath := none,
        action := SyncAction.download, localMtime := none,
        remoteMtime := some 7000, size := some 400 } : FileChange) ∈
      computeDownloadChanges "h1" ["h1", "h2"]
        (fun h => [("hosts/" ++ h ++ "/projects/p2/s2.jsonl",
          ⟨"s2.jsonl", 400, 7000, false⟩)])
        (fun _ => false) (fun _ => none)) ∧
    (∀ c ∈ computeDownloadChanges "h1" ["h1", "h2"]
        (fun h => scanHostRemoteFiles h [⟨"p2/", 0, 0, true⟩]
          (fun _ => [⟨"s2.jsonl", 400, 7000, false⟩]))
        (fun _ => false) (fun _ => none),
      c.relativePath ≠ "hosts/" ++ "h1" ++ "/" ++ "projects/p2/s2.jsonl") :=
  ⟨(downloadPlanning_spec.1 "h1" ["h1", "h2"]
      (fun h => [("hosts/" ++ h ++ "/projects/p2/s2.jsonl",
        ⟨"s2.jsonl", 400, 7000, false⟩)])
      (fun _ => false) (fun _ => none) _).mpr
      ⟨"h2", by decide, by decide,
        ("hosts/h2/projects/p2/s2.jsonl", ⟨"s2.jsonl", 400, 7000, false⟩),
        by decide, Or.inl rfl, by decide⟩,
   fun c hc => downloadPlanning_spec.2 "h1" ["h1", "h2"]
     (fun _ => [⟨"p2/", 0, 0, true⟩])
     (fun _ _ => [⟨"s2.jsonl", 400, 7000, false⟩])
     (fun _ => false) (fun _ => none) c "projects/p2/s2.jsonl"
     (by decide) (by decide) hc⟩

/-! ## Write isolation -/

theorem slash_localRelativePath (hostname proj name : String) :
    "/" ++ localRelativePath hostname proj name =
      "/hosts/" ++ hostname ++ "/" ++ ("projects/" ++ proj ++ "/" ++ name) := by
  apply String.ext
  have d1 : ("/" : String).data = ['/'] := rfl
  have d2 : ("hosts/" : String).data = ['h', 'o', 's', 't', 's', '/'] := rfl
  have d3 : ("/hosts/" : String).data = ['/', 'h', 'o', 's', 't', 's', '/'] := rfl
  have d4 : ("/projects/" : String).data =
      ['/', 'p', 'r', 'o', 'j', 'e', 'c', 't', 's', '/'] := rfl
  have d5 : ("projects/" : String).data =
      ['p', 'r', 'o', 'j', 'e', 'c', 't', 's', '/'] := rfl
  simp [localRelativePath, String.data_append, List.append_assoc,
    d1, d2, d3, d4, d5]

theorem machineDescriptorPath_shape (hostname : String) :
    machineDescriptorPath hostname =
      "/hosts/" ++ hostname ++ "/" ++ "machine.json" := by
  apply String.ext
  have d1 : ("/machine.json" : String).data =
      ['/', 'm', 'a', 'c', 'h', 'i', 'n', 'e', '.', 'j', 's', 'o', 'n'] := rfl
  have d2 : ("machine.json" : String).data =
      ['m', 'a', 'c', 'h', 'i', 'n', 'e', '.', 'j', 's', 'o', 'n'] := rfl
  have d3 : ("/" : String).data = ['/'] := rfl
  simp [machineDescriptorPath, hostRoot, String.data_append,
    List.append_assoc, d1, d2, d3]

theorem historyUploadPath_shape (hostname : String) :
    historyUploadPath hostname =
      "/hosts/" ++ hostname ++ "/" ++ "history.jsonl" := by
  apply String.ext
  have d1 : ("/history.jsonl" : String).data =
      ['/', 'h', 'i', 's', 't', 'o', 'r', 'y', '.', 'j', 's', 'o', 'n', 'l'] := rfl
  have d2 : ("history.jsonl" : String).data =
      ['h', 'i', 's', 't', 'o', 'r', 'y', '.', 'j', 's', 'o', 'n', 'l'] := rfl
  have d3 : ("/" : String).data = ['/'] := rfl
  simp [historyUploadPath, hostRoot, String.data_append,
    List.append_assoc, d1, d2, d3]

/-- Claim C6 (host-namespace write isolation).  Every PUT target of a sync
cycle is either the shared `/session-names.json` document or lies under this
machine's own `/hosts/{hostname}/` namespace; the DELETE issued by
`deleteRemote` also lies under this machine's own namespace; and the shared
document itself does not lie under that namespace, making it the sole write
target outside it. -/
theorem writeIsolation_spec :
    ∀ (hostname : String) (now : Int)
      (projects : List (String × String × List DirEntry))
      (remoteFiles : String → Option WebDavFileInfo)
      (getEntry : String → Option ManifestEntry) (filePath : String),
      (∀ pth ∈ syncCycleWritePaths hostname now projects remoteFiles getEntry,
          pth = sessionNamesPath ∨
            ∃ rest, pth = "/hosts/" ++ hostname ++ "/" ++ rest) ∧
      (∃ rest, (deleteRemoteModel hostname filePath).remoteDeletePath =
          some ("/hosts/" ++ hostname ++ "/" ++ rest)) ∧
      (∀ rest, sessionNamesPath ≠ "/hosts/" ++ hostname ++ "/" ++ rest) := by
  intro hostname now projects remoteFiles getEntry filePath
  refine ⟨?_, ?_, ?_⟩
  · intro pth hpth
    rw [syncCycleWritePaths] at hpth
    rcases List.mem_append.mp hpth with hup | hfixed
    · right
      obtain ⟨c, hc, hcp⟩ := List.mem_map.mp hup
      obtain ⟨p, hp, _, hcdef⟩ := mem_computeUploadChanges.mp hc
      obtain ⟨pr, _, hscan⟩ := mem_scanLocalFiles.mp hp
      obtain ⟨e, _, _, _, _, _, _, hq⟩ := mem_scanProjectFiles.mp hscan
      refine ⟨"projects/" ++ pr.1 ++ "/" ++ e.name, ?_⟩
      rw [← hcp, uploadRequestPath, hcdef]
      have hp1 : p.1 = localRelativePath hostname pr.1 e.name :=
        congrArg Prod.fst hq
      rw [hp1]
      exact slash_localRelativePath hostname pr.1 e.name
    · rcases List.mem_cons.mp hfixed with h | hfixed
      · exact Or.inr ⟨"machine.json", h.trans (machineDescriptorPath_shape hostname)⟩
      rcases List.mem_cons.mp hfixed with h | hfixed
      · exact Or.inr ⟨"history.jsonl", h.trans (historyUploadPath_shape hostname)⟩
      rcases List.mem_cons.mp hfixed with h | hfixed
      · exact Or.inl h
      · exact absurd hfixed (by simp)
  · simp only [deleteRemoteModel, deleteRemoteRelativePath]
    exact ⟨_, congrArg some (slash_localRelativePath hostname _ _)⟩
  · intro rest h
    have hd := congrArg String.data h
    simp [sessionNamesPath, String.data_append] at hd

/-- Witness for `writeIsolation_spec` at concrete inputs. -/
theorem writeIsolation_witness :
    (sessionNamesPath = sessionNamesPath ∨
      ∃ rest, sessionNamesPath = "/hosts/" ++ "h1" ++ "/" ++ rest) ∧
    (∃ rest, (deleteRemoteModel "h1" "/claude/projects/p1/s1.jsonl").remoteDeletePath =
        some ("/hosts/" ++ "h1" ++ "/" ++ rest)) :=
  ⟨(writeIsolation_spec "h1" 0 [] (fun _ => none) (fun _ => none)
      "/claude/projects/p1/s1.jsonl").1 sessionNamesPath (by decide),
   (writeIsolation_spec "h1" 0 [] (fun _ => none) (fun _ => none)
      "/claude/projects/p1/s1.jsonl").2.1⟩

/-! ## Deletion propagation -/

theorem splitChar_ne_nil {sep : Char} : ∀ cs : List Char, splitChar sep cs ≠ [] := by
  intro cs
  cases cs with
  | nil => simp [splitChar]
  | cons c cs' =>
    cases h : splitChar sep cs' with
    | nil => simp [splitChar, h]
    | cons l ls =>
      simp only [splitChar, h]
      split <;> simp

theorem splitChar_cons {sep c : Char} {cs l : List Char} {ls : List (List Char)}
    (h : splitChar sep cs = l :: ls) :
    splitChar sep (c :: cs) =
      if c = sep then [] :: l :: ls else (c :: l) :: ls := by
  simp [splitChar, h]

theorem splitChar_append {sep : Char} :
    ∀ (u v : List Char),
      splitChar sep (u ++ sep :: v) = splitChar sep u ++ splitChar sep v := by
  intro u
  induction u with
  | nil =>
    intro v
    cases h : splitChar sep v with
    | nil => exact absurd h (splitChar_ne_nil v)
    | cons l ls => simp [splitChar, h]
  | cons c cs ih =>
    intro v
    obtain ⟨lc, lcs, hc⟩ : ∃ lc lcs, splitChar sep cs = lc :: lcs := by
      cases h : splitChar sep cs with
      | nil => exact absurd h (splitChar_ne_nil cs)
      | cons a b => exact ⟨a, b, rfl⟩
    have hcs : splitChar sep (cs ++ sep :: v) = lc :: (lcs ++ splitChar sep v) := by
      rw [ih v, hc]
      simp
    have hL := splitChar_cons (c := c) hcs
    have hR := splitChar_cons (c := c) hc
    show splitChar sep (c :: (cs ++ sep :: v)) =
      splitChar sep (c :: cs) ++ splitChar sep v
    rw [hL, hR]
    by_cases hsep : c = sep
    · rw [if_pos hsep, if_pos hsep]
      simp
    · rw [if_neg hsep, if_neg hsep]
      simp

theorem splitChar_no_sep {sep : Char} :
    ∀ {l : List Char}, sep ∉ l → splitChar sep l = [l] := by
  intro l
  induction l with
  | nil => intro _; rfl
  | cons c cs ih =>
    intro h
    have hc : c ≠ sep := fun hceq => h (hceq ▸ List.mem_cons_self c cs)
    have hcs : sep ∉ cs := fun hmem => h (List.mem_cons_of_mem c hmem)
    simp only [splitChar, ih hcs]
    rw [if_neg hc]

theorem normSlashes_id {s : String} (h : '\\' ∉ s.data) : normSlashes s = s := by
  apply String.ext
  show s.data.map _ = s.data
  have hmap : ∀ c ∈ s.data, (if c = '\\' then '/' else c) = c := by
    intro c hc
    have hne : c ≠ '\\' := by
      intro hceq
      rw [hceq] at hc
      exact h hc
    exact if_neg hne
  rw [List.map_congr_left hmap]
  simp

theorem splitStr_three_parts {d proj file : String}
    (hp : '/' ∉ proj.data) (hf : '/' ∉ file.data) :
    splitStr '/' (d ++ "/" ++ proj ++ "/" ++ file) =
      (splitChar '/' d.data).map String.mk ++ [proj] ++ [file] := by
  have hdata : (d ++ "/" ++ proj ++ "/" ++ file).data =
      d.data ++ '/' :: (proj.data ++ '/' :: file.data) := by
    have d1 : ("/" : String).data = ['/'] := rfl
    simp [String.data_append, List.append_assoc, d1]
  rw [splitStr, hdata, splitChar_append, splitChar_append,
    splitChar_no_sep hp, splitChar_no_sep hf]
  simp

/-- Counterexample to claim C7 as stated.  The session file below is only a
cached mirror of host `h2`'s remote file (it lies inside the cache directory
under `hosts/h2/...`), yet `deleteRemote` still issues a remote DELETE — it
rebuilds the last two path segments under this machine's own namespace and
sends the request (which typically answers 404, tolerated by the client).
The claim's final clause, that deleting such a session issues no remote
delete, is therefore false. -/
theorem deleteMirror_counterexample :
    (deleteRemoteModel "h1"
        "/store/webdav-cache/.claude/hosts/h2/projects/p2/s2.jsonl").remoteDeletePath =
      some "/hosts/h1/projects/p2/s2.jsonl" := by decide

/-- Claim C7 (amended).  Deleting a session always issues exactly one remote
DELETE, for the path `hosts/{thisHost}/projects/{parentDir}/{fileName}`
rebuilt from the file's last two path segments — the matching path when the
session lives under this machine's own host namespace — and never a path
under another host's namespace, even when the session is only a cached
mirror of another host's file; a 404 answer to the DELETE is treated as
already satisfied; and the manifest entry and the cache-mirror copy at that
relative path are removed. -/
theorem deleteRemote_amended_spec :
    (∀ (hostname d proj file : String),
        '\\' ∉ d.data → '\\' ∉ proj.data → '\\' ∉ file.data →
        '/' ∉ proj.data → '/' ∉ file.data →
        deleteRemoteRelativePath hostname (d ++ "/" ++ proj ++ "/" ++ file) =
          localRelativePath hostname proj file) ∧
    (∀ hostname filePath,
        (deleteRemoteModel hostname filePath).remoteDeletePath =
            some ("/" ++ deleteRemoteRelativePath hostname filePath) ∧
          (deleteRemoteModel hostname filePath).manifestRemoved =
            deleteRemoteRelativePath hostname filePath ∧
          (deleteRemoteModel hostname filePath).cacheRemoved =
            deleteRemoteRelativePath hostname filePath) ∧
    (∀ hostname filePath, ∃ rest,
        (deleteRemoteModel hostname filePath).remoteDeletePath =
          some ("/hosts/" ++ hostname ++ "/" ++ rest)) ∧
    (deleteOk 404 = true ∧ ∀ s, 400 ≤ s → s ≠ 404 → deleteOk s = false) := by
  refine ⟨?_, fun hostname filePath => ⟨rfl, rfl, rfl⟩, ?_, by decide, ?_⟩
  · intro hostname d proj file hbd hbp hbf hp hf
    have hnorm : normSlashes (d ++ "/" ++ proj ++ "/" ++ file) =
        d ++ "/" ++ proj ++ "/" ++ file := by
      apply normSlashes_id
      intro hmem
      have d1 : ("/" : String).data = ['/'] := rfl
      simp only [String.data_append, d1, List.mem_append,
        List.mem_singleton] at hmem
      rcases hmem with (((h | h) | h) | h) | h
      · exact hbd h
      · exact absurd h (by decide)
      · exact hbp h
      · exact absurd h (by decide)
      · exact hbf h
    rw [deleteRemoteRelativePath, hnorm, splitStr_three_parts hp hf]
    have hlast : (((splitChar '/' d.data).map String.mk ++ [proj]) ++ [file]).getLast? =
        some file := List.getLast?_concat _
    have hlen : (((splitChar '/' d.data).map String.mk ++ [proj]) ++ [file]).length =
        ((splitChar '/' d.data).map String.mk).length + 2 := by
      simp
    have hidx : (((splitChar '/' d.data).map String.mk ++ [proj]) ++ [file])[
        (((splitChar '/' d.data).map String.mk ++ [proj]) ++ [file]).length - 2]? =
        some proj := by
      rw [hlen]
      have h2 : ((splitChar '/' d.data).map String.mk).length + 2 - 2 =
          ((splitChar '/' d.data).map String.mk).length := by omega
      rw [h2]
      simp [List.getElem?_append, List.getElem_append_right, List.length_map]
    rw [hlast, hidx]
    rw [if_pos (by omega)]
    rfl
  · intro hostname filePath
    simp only [deleteRemoteModel, deleteRemoteRelativePath]
    exact ⟨_, congrArg some (slash_localRelativePath hostname _ _)⟩
  · intro s h1 h2
    simp [deleteOk, h1, h2]

/-- Witness for `deleteRemote_amended_spec` at concrete inputs. -/
theorem deleteRemote_amended_witness :
    deleteRemoteRelativePath "h1"
        ("/claude/projects" ++ "/" ++ "p1" ++ "/" ++ "s1.jsonl") =
      localRelativePath "h1" "p1" "s1.jsonl" :=
  deleteRemote_amended_spec.1 "h1" "/claude/projects" "p1" "s1.jsonl"
    (by decide) (by decide) (by decide) (by decide) (by decide)

/-! ## Name-override merge -/

theorem alistLookup_append {β : Type} (k : String) :
    ∀ (l1 l2 : List (String × β)),
      alistLookup k (l1 ++ l2) =
        match alistLookup k l1 with
        | some v => some v
        | none => alistLookup k l2 := by
  intro l1 l2
  induction l1 with
  | nil => simp [alistLookup]
  | cons p rest ih =>
    by_cases h : p.1 = k
    · simp [alistLookup, h]
    · simp only [List.cons_append, alistLookup, if_neg h]
      exact ih

theorem lookup_spreadMap {remote : List (String × String)} :
    ∀ {localNames : List (String × String)} {k : String} {v : String},
      alistLookup k localNames = some v →
      alistLookup k
          (localNames.map fun p => (p.1, (alistLookup p.1 remote).getD p.2)) =
        some ((alistLookup k remote).getD v) := by
  intro localNames
  induction localNames with
  | nil => intro k v h; simp [alistLookup] at h
  | cons p rest ih =>
    intro k v h
    by_cases hk : p.1 = k
    · rw [alistLookup, if_pos hk] at h
      simp only [Option.some.injEq] at h
      simp only [List.map_cons, alistLookup, if_pos hk]
      rw [hk, h]
    · rw [alistLookup, if_neg hk] at h
      simp only [List.map_cons, alistLookup, if_neg hk]
      exact ih h

theorem lookup_spreadMap_none {remote : List (String × String)} :
    ∀ {localNames : List (String × String)} {k : String},
      alistLookup k localNames = none →
      alistLookup k
          (localNames.map fun p => (p.1, (alistLookup p.1 remote).getD p.2)) =
        none := by
  intro localNames
  induction localNames with
  | nil => intro k _; simp [alistLookup]
  | cons p rest ih =>
    intro k h
    by_cases hk : p.1 = k
    · rw [alistLookup, if_pos hk] at h
      exact absurd h (by simp)
    · rw [alistLookup, if_neg hk] at h
      simp only [List.map_cons, alistLookup, if_neg hk]
      exact ih h

theorem lookup_filter_notlocal {localNames : List (String × String)} :
    ∀ {remote : List (String × String)} {k : String},
      alistLookup k localNames = none →
      alistLookup k
          (remote.filter fun p => decide (alistLookup p.1 localNames = none)) =
        alistLookup k remote := by
  intro remote
  induction remote with
  | nil => intro k _; rfl
  | cons q rest ih =>
    intro k h
    by_cases hk : q.1 = k
    · have hq : decide (alistLookup q.1 localNames = none) = true := by
        rw [hk, h]
        exact decide_eq_true rfl
      simp [List.filter_cons, hq, alistLookup, hk, h]
    · by_cases hq : decide (alistLookup q.1 localNames = none) = true
      · simp only [List.filter_cons, hq, if_true, alistLookup, if_neg hk]
        exact ih h
      · have hq2 : decide (alistLookup q.1 localNames = none) = false := by
          simpa using hq
        simp only [List.filter_cons, hq2, Bool.false_eq_true, if_false,
          alistLookup, if_neg hk]
        exact ih h

theorem lookup_spreadMerge {localNames remote : List (String × String)}
    {k : String} :
    alistLookup k (spreadMerge localNames remote) =
      match alistLookup k remote with
      | some v => some v
      | none => alistLookup k localNames := by
  rw [spreadMerge, alistLookup_append]
  rcases hloc : alistLookup k localNames with _ | v0
  · rw [lookup_spreadMap_none hloc, lookup_filter_notlocal hloc]
    rcases alistLookup k remote with _ | v <;> simp [hloc]
  · rw [lookup_spreadMap hloc]
    rcases alistLookup k remote with _ | v <;> simp

/-- Claim C4 (name-override merge).  When the remote document exists, the
merged mapping is written both locally and back to the remote document
unconditionally; every remote key (collisions included) takes the remote
value, every local-only key keeps its local value, and a key is present in
the merge exactly when it is present in the local or the remote mapping. -/
theorem sessionNames_merge_spec :
    ∀ (localNames remote : List (String × String)),
      (syncSessionNamesModel localNames (some remote) =
        { localWritten := some (spreadMerge localNames remote),
          remoteWritten := some (spreadMerge localNames remote) }) ∧
      (∀ k v, alistLookup k remote = some v →
          alistLookup k (spreadMerge localNames remote) = some v) ∧
      (∀ k, alistLookup k remote = none →
          alistLookup k (spreadMerge localNames remote) =
            alistLookup k localNames) ∧
      (∀ k, (alistLookup k (spreadMerge localNames remote)).isSome ↔
          ((alistLookup k localNames).isSome ∨
            (alistLookup k remote).isSome)) := by
  intro localNames remote
  refine ⟨rfl, ?_, ?_, ?_⟩
  · intro k v h
    rw [lookup_spreadMerge, h]
  · intro k h
    rw [lookup_spreadMerge, h]
  · intro k
    rw [lookup_spreadMerge]
    rcases hr : alistLookup k remote with _ | v
    · simp
    · simp

/-- Witness for `sessionNames_merge_spec` at concrete inputs: a colliding
key takes the remote value and a local-only key keeps its local value. -/
theorem sessionNames_merge_witness :
    alistLookup "s2" (spreadMerge [("s1", "alpha"), ("s2", "beta")]
        [("s2", "gamma"), ("s3", "delta")]) = some "gamma" ∧
    alistLookup "s1" (spreadMerge [("s1", "alpha"), ("s2", "beta")]
        [("s2", "gamma"), ("s3", "delta")]) =
      alistLookup "s1" [("s1", "alpha"), ("s2", "beta")] :=
  ⟨(sessionNames_merge_spec [("s1", "alpha"), ("s2", "beta")]
      [("s2", "gamma"), ("s3", "delta")]).2.1 "s2" "gamma" (by decide),
   (sessionNames_merge_spec [("s1", "alpha"), ("s2", "beta")]
      [("s2", "gamma"), ("s3", "delta")]).2.2.1 "s1" (by decide)⟩

/-! ## History merge: lookup and fold lemmas -/

theorem alistLookup_upsert_self (k : String) (v : HistEntry) :
    ∀ m, alistLookup k (upsertEntry k v m) = some v := by
  intro m
  induction m with
  | nil => simp [upsertEntry, alistLookup]
  | cons p rest ih =>
    by_cases h : p.1 = k
    · simp [upsertEntry, h, alistLookup]
    · simp only [upsertEntry, if_neg h, alistLookup, if_neg h]
      exact ih

theorem alistLookup_upsert_other {k k' : String} (hne : k' ≠ k)
    (v : HistEntry) :
    ∀ m, alistLookup k' (upsertEntry k v m) = alistLookup k' m := by
  intro m
  induction m with
  | nil =>
    simp only [upsertEntry, alistLookup]
    rw [if_neg fun h => hne h.symm]
  | cons p rest ih =>
    by_cases h : p.1 = k
    · simp only [upsertEntry, if_pos h, alistLookup]
      rw [if_neg fun hh => hne hh.symm,
        if_neg fun hh => hne (h.symm.trans hh).symm]
    · simp only [upsertEntry, if_neg h, alistLookup]
      by_cases h2 : p.1 = k'
      · rw [if_pos h2, if_pos h2]
      · rw [if_neg h2, if_neg h2]
        exact ih

theorem alistLookup_none_iff {β : Type} {k : String} :
    ∀ {l : List (String × β)}, alistLookup k l = none ↔ k ∉ l.map Prod.fst := by
  intro l
  induction l with
  | nil => simp [alistLookup]
  | cons p rest ih =>
    by_cases h : p.1 = k
    · simp [alistLookup, h]
    · simp only [alistLookup, if_neg h, List.map_cons, List.mem_cons, ih]
      constructor
      · rintro hk (h1 | h1)
        · exact h h1.symm
        · exact hk h1
      · intro hk h1
        exact hk (Or.inr h1)

theorem mem_of_alistLookup_some {β : Type} {k : String} {v : β} :
    ∀ {l : List (String × β)}, alistLookup k l = some v → (k, v) ∈ l := by
  intro l
  induction l with
  | nil => intro h; simp [alistLookup] at h
  | cons p rest ih =>
    intro h
    by_cases hk : p.1 = k
    · rw [alistLookup, if_pos hk] at h
      simp only [Option.some.injEq] at h
      have hp : p = (k, v) := by
        cases p
        simp_all
      exact hp ▸ List.mem_cons_self p rest
    · rw [alistLookup, if_neg hk] at h
      exact List.mem_cons_of_mem _ (ih h)

theorem alistLookup_some_of_mem_nodup {β : Type} {k : String} {v : β} :
    ∀ {l : List (String × β)}, (l.map Prod.fst).Nodup → (k, v) ∈ l →
      alistLookup k l = some v := by
  intro l
  induction l with
  | nil => intro _ h; simp at h
  | cons p rest ih =>
    intro hnd hmem
    simp only [List.map_cons, List.nodup_cons] at hnd
    rcases List.mem_cons.mp hmem with heq | hmem2
    · rw [← heq]
      simp [alistLookup]
    · have hne : p.1 ≠ k := by
        intro hk
        apply hnd.1
        rw [hk]
        exact List.mem_map.mpr ⟨(k, v), hmem2, rfl⟩
      rw [alistLookup, if_neg hne]
      exact ih hnd.2 hmem2

theorem upsertEntry_fresh {k : String} {v : HistEntry} :
    ∀ {m : List (String × HistEntry)}, k ∉ m.map Prod.fst →
      upsertEntry k v m = m ++ [(k, v)] := by
  intro m
  induction m with
  | nil => intro _; rfl
  | cons p rest ih =>
    intro h
    simp only [List.map_cons, List.mem_cons] at h
    push_neg at h
    rw [upsertEntry, if_neg fun hh => h.1 hh.symm, ih h.2]
    simp

theorem keys_upsertEntry (k : String) (v : HistEntry) :
    ∀ m : List (String × HistEntry),
      (upsertEntry k v m).map Prod.fst =
        if k ∈ m.map Prod.fst then m.map Prod.fst
        else m.map Prod.fst ++ [k] := by
  intro m
  induction m with
  | nil => simp [upsertEntry]
  | cons p rest ih =>
    by_cases h : p.1 = k
    · rw [upsertEntry, if_pos h]
      simp [h]
    · rw [upsertEntry, if_neg h]
      simp only [List.map_cons, ih]
      by_cases h2 : k ∈ rest.map Prod.fst
      · rw [if_pos h2, if_pos (List.mem_cons_of_mem _ h2)]
      · rw [if_neg h2, if_neg ?hnot]
        · simp
        case hnot =>
          simp only [List.mem_cons]
          rintro (h1 | h1)
          · exact h h1.symm
          · exact h2 h1

theorem nodup_keys_upsertEntry {k : String} {v : HistEntry}
    {m : List (String × HistEntry)} (h : (m.map Prod.fst).Nodup) :
    ((upsertEntry k v m).map Prod.fst).Nodup := by
  rw [keys_upsertEntry]
  by_cases h2 : k ∈ m.map Prod.fst
  · rw [if_pos h2]
    exact h
  · rw [if_neg h2]
    simp [List.nodup_append, h, h2]

theorem parseHistoryLine_eq (pl : String → Option HistRec)
    (m : List (String × HistEntry)) (line : String) :
    parseHistoryLine pl m line =
      match lineRecord pl line with
      | none => m
      | some q =>
        match alistLookup q.1 m with
        | none => upsertEntry q.1 q.2 m
        | some ex =>
          if q.2.timestamp > ex.timestamp then upsertEntry q.1 q.2 m
          else m := by
  rw [parseHistoryLine, lineRecord]
  by_cases hb : isBlankLine line
  · simp [hb]
  · simp only [if_neg hb, Bool.false_eq_true]
    rcases hr : pl line with _ | r
    · simp
    · simp only [Option.map_some]
      rcases h2 : alistLookup r.sessionId m with _ | ex <;> simp [h2]


theorem parseHistoryLine_none {pl : String → Option HistRec} {line : String}
    (h : lineRecord pl line = none) (m : List (String × HistEntry)) :
    parseHistoryLine pl m line = m := by
  simp only [parseHistoryLine_eq, h]

theorem lookup_parseHistoryLine_rec {pl : String → Option HistRec}
    {line : String} {q : String × HistEntry}
    (h : lineRecord pl line = some q)
    (m : List (String × HistEntry)) (sid : String) :
    alistLookup sid (parseHistoryLine pl m line) =
      if q.1 = sid then combineOpt (alistLookup sid m) [q.2]
      else alistLookup sid m := by
  simp only [parseHistoryLine_eq, h]
  by_cases hk : q.1 = sid
  · subst hk
    rw [if_pos rfl]
    rcases h2 : alistLookup q.1 m with _ | ex
    · simp only [h2]
      rw [alistLookup_upsert_self]
      rfl
    · simp only [h2]
      by_cases ht : q.2.timestamp > ex.timestamp
      · rw [if_pos ht, alistLookup_upsert_self]
        simp [combineOpt, histBest, ht]
      · rw [if_neg ht, h2]
        simp [combineOpt, histBest, ht]
  · rw [if_neg hk]
    have hne : sid ≠ q.1 := fun hh => hk hh.symm
    rcases h2 : alistLookup q.1 m with _ | ex
    · simp only [h2]
      exact alistLookup_upsert_other hne q.2 m
    · simp only [h2]
      by_cases ht : q.2.timestamp > ex.timestamp
      · rw [if_pos ht]
        exact alistLookup_upsert_other hne q.2 m
      · rw [if_neg ht]

theorem combineOpt_append (o : Option HistEntry) :
    ∀ (X Y : List HistEntry),
      combineOpt (combineOpt o X) Y = combineOpt o (X ++ Y) := by
  intro X Y
  rcases o with _ | e
  · rcases X with _ | ⟨r, rs⟩
    · rfl
    · simp [combineOpt, firstMaxRecord, List.foldl_append]
  · simp [combineOpt, List.foldl_append]

theorem lookup_parseFold (pl : String → Option HistRec) (sid : String) :
    ∀ (lines : List String) (m : List (String × HistEntry)),
      alistLookup sid (lines.foldl (parseHistoryLine pl) m) =
        combineOpt (alistLookup sid m)
          (keyRecords (recordsOfLines pl lines) sid) := by
  intro lines
  induction lines with
  | nil =>
    intro m
    show alistLookup sid m = combineOpt (alistLookup sid m) []
    rcases alistLookup sid m with _ | e <;> rfl
  | cons line rest ih =>
    intro m
    rw [List.foldl_cons, ih (parseHistoryLine pl m line)]
    rcases hr : lineRecord pl line with _ | q
    · rw [parseHistoryLine_none hr]
      have h2 : recordsOfLines pl (line :: rest) = recordsOfLines pl rest := by
        simp [recordsOfLines, List.filterMap_cons, hr]
      rw [h2]
    · rw [lookup_parseHistoryLine_rec hr]
      by_cases hk : q.1 = sid
      · rw [if_pos hk]
        have h2 : keyRecords (recordsOfLines pl (line :: rest)) sid =
            q.2 :: keyRecords (recordsOfLines pl rest) sid := by
          simp [recordsOfLines, List.filterMap_cons, hr, keyRecords,
            List.filter_cons, hk]
        rw [h2, combineOpt_append]
        rfl
      · rw [if_neg hk]
        have h2 : keyRecords (recordsOfLines pl (line :: rest)) sid =
            keyRecords (recordsOfLines pl rest) sid := by
          simp [recordsOfLines, List.filterMap_cons, hr, keyRecords,
            List.filter_cons, hk]
        rw [h2]

theorem lookup_parseHistoryContent (pl : String → Option HistRec)
    (m : List (String × HistEntry)) (content : String) (sid : String) :
    alistLookup sid (parseHistoryContent pl m content) =
      combineOpt (alistLookup sid m)
        (keyRecords (lineRecords pl content) sid) :=
  lookup_parseFold pl sid (splitStr '\n' content) m

theorem keyRecords_append (X Y : List (String × HistEntry)) (sid : String) :
    keyRecords (X ++ Y) sid = keyRecords X sid ++ keyRecords Y sid := by
  simp [keyRecords, List.filter_append]

theorem lookup_entriesOfMerge (pl : String → Option HistRec)
    (localContent remoteContent : String) (sid : String) :
    alistLookup sid (entriesOfMerge pl localContent remoteContent) =
      firstMaxRecord (recordsFor pl localContent remoteContent sid) := by
  rw [show entriesOfMerge pl localContent remoteContent =
      parseHistoryContent pl (parseHistoryContent pl [] localContent)
        remoteContent from rfl,
    lookup_parseHistoryContent, lookup_parseHistoryContent]
  rw [show alistLookup sid ([] : List (String × HistEntry)) = none from rfl,
    combineOpt_append]
  have h2 : recordsFor pl localContent remoteContent sid =
      keyRecords (lineRecords pl localContent) sid ++
        keyRecords (lineRecords pl remoteContent) sid := by
    rw [show recordsFor pl localContent remoteContent sid =
        keyRecords (lineRecords pl localContent ++
          lineRecords pl remoteContent) sid from rfl,
      keyRecords_append]
  rw [h2]
  rfl

theorem foldl_histBest_spec :
    ∀ (rs : List HistEntry) (r : HistEntry),
      ∃ pre post, r :: rs = pre ++ (rs.foldl histBest r) :: post ∧
        (∀ x ∈ pre, x.timestamp < (rs.foldl histBest r).timestamp) ∧
        ∀ x ∈ r :: rs, x.timestamp ≤ (rs.foldl histBest r).timestamp := by
  intro rs
  induction rs with
  | nil =>
    intro r
    exact ⟨[], [], rfl, by simp, by simp⟩
  | cons x xs ih =>
    intro r
    rw [List.foldl_cons]
    obtain ⟨pre, post, hsplit, hpre, hmax⟩ := ih (histBest r x)
    by_cases hx : x.timestamp > r.timestamp
    · have hb : histBest r x = x := if_pos hx
      rw [hb] at hsplit hpre hmax ⊢
      have hxle : x.timestamp ≤ (xs.foldl histBest x).timestamp :=
        hmax x (List.mem_cons_self x xs)
      refine ⟨r :: pre, post, ?_, ?_, ?_⟩
      · rw [List.cons_append, ← hsplit]
      · intro y hy
        rcases List.mem_cons.mp hy with hy | hy
        · subst hy
          omega
        · exact hpre y hy
      · intro y hy
        rcases List.mem_cons.mp hy with hy | hy
        · subst hy
          omega
        · exact hmax y hy
    · have hb : histBest r x = r := if_neg hx
      rw [hb] at hsplit hpre hmax ⊢
      cases pre with
      | nil =>
        simp only [List.nil_append] at hsplit
        injection hsplit with hf hpost
        refine ⟨[], x :: xs, ?_, by simp, ?_⟩
        · rw [List.nil_append, ← hf]
        · intro y hy
          rcases List.mem_cons.mp hy with hy | hy
          · subst hy
            rw [← hf]
          · rcases List.mem_cons.mp hy with hy | hy
            · subst hy
              rw [← hf]
              omega
            · exact hmax y (List.mem_cons_of_mem _ (hpost ▸ hy))
      | cons p0 pre' =>
        rw [List.cons_append] at hsplit
        injection hsplit with hp0 hxs
        have hrlt : r.timestamp < ((x :: xs).foldl histBest r).timestamp := by
          rw [List.foldl_cons, hb]
          have := hpre p0 (List.mem_cons_self p0 pre')
          rw [← hp0] at this
          exact this
        rw [List.foldl_cons, hb] at hrlt
        refine ⟨r :: x :: pre', post, ?_, ?_, ?_⟩
        · rw [List.cons_append, List.cons_append, ← hxs]
        · intro y hy
          rcases List.mem_cons.mp hy with hy | hy
          · subst hy
            exact hrlt
          · rcases List.mem_cons.mp hy with hy | hy
            · subst hy
              omega
            · exact hpre y (List.mem_cons_of_mem _ hy)
        · intro y hy
          rcases List.mem_cons.mp hy with hy | hy
          · subst hy
            omega
          · rcases List.mem_cons.mp hy with hy | hy
            · subst hy
              omega
            · exact hmax y (List.mem_cons_of_mem _ hy)

theorem firstMaxRecord_spec {rs : List HistEntry} {e : HistEntry}
    (h : firstMaxRecord rs = some e) :
    ∃ pre post, rs = pre ++ e :: post ∧
      (∀ x ∈ pre, x.timestamp < e.timestamp) ∧
      ∀ x ∈ rs, x.timestamp ≤ e.timestamp := by
  cases rs with
  | nil => exact absurd h (by simp [firstMaxRecord])
  | cons r rs' =>
    rw [firstMaxRecord] at h
    simp only [Option.some.injEq] at h
    subst h
    exact foldl_histBest_spec rs' r

theorem firstMaxRecord_mem {rs : List HistEntry} {e : HistEntry}
    (h : firstMaxRecord rs = some e) :
    e ∈ rs ∧ ∀ x ∈ rs, x.timestamp ≤ e.timestamp := by
  obtain ⟨pre, post, hsplit, _, hmax⟩ := firstMaxRecord_spec h
  refine ⟨?_, hmax⟩
  rw [hsplit]
  exact List.mem_append_right _ (List.mem_cons_self _ _)

theorem firstMaxRecord_some_of_mem {rs : List HistEntry} {e : HistEntry}
    (h : e ∈ rs) : ∃ f, firstMaxRecord rs = some f ∧ e.timestamp ≤ f.timestamp := by
  cases rs with
  | nil => exact absurd h (by simp)
  | cons r rs' =>
    refine ⟨rs'.foldl histBest r, rfl, ?_⟩
    obtain ⟨_, _, _, _, hmax⟩ := foldl_histBest_spec rs' r
    exact hmax e h

theorem splitChar_not_mem {sep : Char} :
    ∀ (cs : List Char), ∀ l ∈ splitChar sep cs, sep ∉ l := by
  intro cs
  induction cs with
  | nil =>
    intro l hl
    simp only [splitChar, List.mem_singleton] at hl
    rw [hl]
    simp
  | cons c cs ih =>
    intro l hl
    obtain ⟨lc, lcs, hc⟩ : ∃ lc lcs, splitChar sep cs = lc :: lcs := by
      cases h : splitChar sep cs with
      | nil => exact absurd h (splitChar_ne_nil cs)
      | cons a b => exact ⟨a, b, rfl⟩
    rw [splitChar_cons hc] at hl
    by_cases hsep : c = sep
    · rw [if_pos hsep] at hl
      rcases List.mem_cons.mp hl with h | h
      · rw [h]
        simp
      · refine ih l ?_
        rw [hc]
        exact h
    · rw [if_neg hsep] at hl
      rcases List.mem_cons.mp hl with h | h
      · rw [h]
        intro hmem
        rcases List.mem_cons.mp hmem with h2 | h2
        · exact hsep h2.symm
        · refine ih lc ?_ h2
          rw [hc]
          exact List.mem_cons_self _ _
      · refine ih l ?_
        rw [hc]
        exact List.mem_cons_of_mem _ h

theorem splitChar_joinChar {sep : Char} :
    ∀ (ds : List (List Char)), ds ≠ [] → (∀ d ∈ ds, sep ∉ d) →
      splitChar sep (joinChar sep ds ++ [sep]) = ds ++ [[]] := by
  intro ds
  induction ds with
  | nil => intro h _; exact absurd rfl h
  | cons d ds ih =>
    intro _ hall
    cases ds with
    | nil =>
      show splitChar sep (d ++ [sep]) = [d, []]
      rw [show d ++ [sep] = d ++ sep :: [] from rfl, splitChar_append,
        splitChar_no_sep (hall d (List.mem_cons_self _ _))]
      rfl
    | cons d2 ds2 =>
      show splitChar sep ((d ++ sep :: joinChar sep (d2 :: ds2)) ++ [sep]) =
        (d :: d2 :: ds2) ++ [[]]
      have hre : (d ++ sep :: joinChar sep (d2 :: ds2)) ++ [sep] =
          d ++ sep :: (joinChar sep (d2 :: ds2) ++ [sep]) := by
        simp
      rw [hre, splitChar_append,
        splitChar_no_sep (hall d (List.mem_cons_self _ _)),
        ih (by simp) fun x hx => hall x (List.mem_cons_of_mem _ hx)]
      rfl

theorem splitStr_serializeHistory {lines : List String}
    (hne : lines ≠ []) (hnl : ∀ l ∈ lines, '\n' ∉ l.data) :
    splitStr '\n' (serializeHistory lines) = lines ++ [""] := by
  rw [splitStr, serializeHistory]
  show (splitChar '\n'
      (joinChar '\n' (lines.map String.data) ++ ['\n'])).map String.mk =
    lines ++ [""]
  have hsplit := splitChar_joinChar (lines.map String.data)
    (by simpa using hne)
    (fun d hd => by
      obtain ⟨l, hl, hdl⟩ := List.mem_map.mp hd
      rw [← hdl]
      exact hnl l hl)
  rw [hsplit, List.map_append, List.map_map]
  have hid : lines.map (String.mk ∘ String.data) = lines :=
    (List.map_congr_left fun l _ => rfl).trans (List.map_id lines)
  rw [hid]
  rfl

theorem parseFold_fresh (pl : String → Option HistRec) :
    ∀ (lines : List String) (m : List (String × HistEntry)),
      ((m.map Prod.fst) ++ (recordsOfLines pl lines).map Prod.fst).Nodup →
      lines.foldl (parseHistoryLine pl) m = m ++ recordsOfLines pl lines := by
  intro lines
  induction lines with
  | nil =>
    intro m _
    simp [recordsOfLines]
  | cons line rest ih =>
    intro m hnd
    rw [List.foldl_cons]
    rcases hr : lineRecord pl line with _ | q
    · rw [parseHistoryLine_none hr]
      have h2 : recordsOfLines pl (line :: rest) = recordsOfLines pl rest := by
        simp [recordsOfLines, List.filterMap_cons, hr]
      rw [h2] at hnd ⊢
      exact ih m hnd
    · have h2 : recordsOfLines pl (line :: rest) = q :: recordsOfLines pl rest := by
        simp [recordsOfLines, List.filterMap_cons, hr]
      rw [h2] at hnd ⊢
      have hq_not_m : q.1 ∉ m.map Prod.fst := by
        intro hmem
        obtain ⟨_, _, hdisj⟩ := List.nodup_append.mp hnd
        exact hdisj hmem (by simp)
      have hstep : parseHistoryLine pl m line = m ++ [q] := by
        have hlook : alistLookup q.1 m = none := alistLookup_none_iff.mpr hq_not_m
        simp only [parseHistoryLine_eq, hr, hlook]
        rw [upsertEntry_fresh hq_not_m]
      have hnd2 : (((m ++ [q]).map Prod.fst) ++
          (recordsOfLines pl rest).map Prod.fst).Nodup := by
        simp only [List.map_append] at hnd ⊢
        simpa [List.append_assoc] using hnd
      rw [hstep, ih (m ++ [q]) hnd2]
      simp

theorem lineRecord_some_inv {pl : String → Option HistRec} {line : String}
    {q : String × HistEntry} (h : lineRecord pl line = some q) :
    isBlankLine line = false ∧ pl line = some ⟨q.1, q.2.timestamp⟩ ∧
      q.2.line = line := by
  rw [lineRecord] at h
  by_cases hb : isBlankLine line
  · rw [if_pos hb] at h
    exact absurd h (by simp)
  · rw [if_neg hb] at h
    rcases hp : pl line with _ | r
    · rw [hp] at h
      exact absurd h (by simp)
    · rw [hp] at h
      simp only [Option.map_some', Option.some.injEq] at h
      subst h
      exact ⟨by simpa using hb, rfl, rfl⟩

theorem mem_upsertEntry {p : String × HistEntry} {k : String} {v : HistEntry} :
    ∀ {m : List (String × HistEntry)}, p ∈ upsertEntry k v m →
      p = (k, v) ∨ p ∈ m := by
  intro m
  induction m with
  | nil =>
    intro h
    simp only [upsertEntry, List.mem_singleton] at h
    exact Or.inl h
  | cons hd rest ih =>
    intro h
    by_cases hk : hd.1 = k
    · rw [upsertEntry, if_pos hk] at h
      rcases List.mem_cons.mp h with h | h
      · exact Or.inl h
      · exact Or.inr (List.mem_cons_of_mem _ h)
    · rw [upsertEntry, if_neg hk] at h
      rcases List.mem_cons.mp h with h | h
      · exact Or.inr (h ▸ List.mem_cons_self hd rest)
      · rcases ih h with h | h
        · exact Or.inl h
        · exact Or.inr (List.mem_cons_of_mem _ h)

theorem entriesWellFormed_upsert {pl : String → Option HistRec}
    {m : List (String × HistEntry)} (hm : entriesWellFormed pl m)
    {k : String} {e : HistEntry} (hb : isBlankLine e.line = false)
    (hnl : '\n' ∉ e.line.data) (hple : pl e.line = some ⟨k, e.timestamp⟩) :
    entriesWellFormed pl (upsertEntry k e m) := by
  refine ⟨nodup_keys_upsertEntry hm.1, ?_⟩
  intro p hp
  rcases mem_upsertEntry hp with h | h
  · rw [h]
    exact ⟨hb, hnl, hple⟩
  · exact hm.2 p h

theorem entriesWellFormed_parseLine {pl : String → Option HistRec}
    {m : List (String × HistEntry)} (hm : entriesWellFormed pl m)
    {line : String} (hnl : '\n' ∉ line.data) :
    entriesWellFormed pl (parseHistoryLine pl m line) := by
  rcases hr : lineRecord pl line with _ | q
  · rw [parseHistoryLine_none hr]
    exact hm
  · obtain ⟨hblank, hpl, hline⟩ := lineRecord_some_inv hr
    have hb2 : isBlankLine q.2.line = false := by rw [hline]; exact hblank
    have hnl2 : '\n' ∉ q.2.line.data := by rw [hline]; exact hnl
    have hpl2 : pl q.2.line = some ⟨q.1, q.2.timestamp⟩ := by
      rw [hline]; exact hpl
    rcases h2 : alistLookup q.1 m with _ | ex
    · simp only [parseHistoryLine_eq, hr, h2]
      exact entriesWellFormed_upsert hm hb2 hnl2 hpl2
    · simp only [parseHistoryLine_eq, hr, h2]
      by_cases ht : q.2.timestamp > ex.timestamp
      · rw [if_pos ht]
        exact entriesWellFormed_upsert hm hb2 hnl2 hpl2
      · rw [if_neg ht]
        exact hm

theorem entriesWellFormed_parseContent {pl : String → Option HistRec}
    {m : List (String × HistEntry)} (hm : entriesWellFormed pl m)
    (content : String) :
    entriesWellFormed pl (parseHistoryContent pl m content) := by
  rw [parseHistoryContent]
  have hlines : ∀ l ∈ splitStr '\n' content, '\n' ∉ l.data := by
    intro l hl
    obtain ⟨d, hd, hdl⟩ := List.mem_map.mp hl
    rw [← hdl]
    exact splitChar_not_mem _ d hd
  have hgen : ∀ (lines : List String), (∀ l ∈ lines, '\n' ∉ l.data) →
      ∀ m2, entriesWellFormed pl m2 →
        entriesWellFormed pl (lines.foldl (parseHistoryLine pl) m2) := by
    intro lines
    induction lines with
    | nil => intro _ m2 hm2; exact hm2
    | cons l rest ih =>
      intro hl m2 hm2
      rw [List.foldl_cons]
      exact ih (fun x hx => hl x (List.mem_cons_of_mem _ hx)) _
        (entriesWellFormed_parseLine hm2 (hl l (List.mem_cons_self _ _)))
  exact hgen _ hlines m hm

theorem entriesWellFormed_entriesOfMerge (pl : String → Option HistRec)
    (localContent remoteContent : String) :
    entriesWellFormed pl (entriesOfMerge pl localContent remoteContent) :=
  entriesWellFormed_parseContent
    (entriesWellFormed_parseContent ⟨by simp, by simp⟩ localContent)
    remoteContent

theorem lineRecord_of_wf {pl : String → Option HistRec}
    {es : List (String × HistEntry)} (wf : entriesWellFormed pl es)
    {p : String × HistEntry} (hp : p ∈ es) :
    lineRecord pl p.2.line = some (p.1, p.2) ∧ keyOf pl p.2 = p.1 := by
  obtain ⟨hb, hnl, hpl⟩ := wf.2 p hp
  constructor
  · rw [lineRecord, if_neg (by simp [hb]), hpl]
    rfl
  · rw [keyOf, hpl]

theorem recordsOfLines_map_line {pl : String → Option HistRec} :
    ∀ {vs : List HistEntry},
      (∀ v ∈ vs, lineRecord pl v.line = some (keyOf pl v, v)) →
      recordsOfLines pl (vs.map HistEntry.line) =
        vs.map fun v => (keyOf pl v, v) := by
  intro vs
  induction vs with
  | nil => intro _; rfl
  | cons v rest ih =>
    intro h
    simp only [List.map_cons, recordsOfLines, List.filterMap_cons,
      h v (List.mem_cons_self _ _)]
    exact congrArg _ (ih fun x hx => h x (List.mem_cons_of_mem _ hx))

theorem merge_pairs_perm (pl : String → Option HistRec) (A B : String) :
    List.Perm
      ((List.insertionSort histGE
          ((entriesOfMerge pl A B).map Prod.snd)).map
        fun v => (keyOf pl v, v))
      (entriesOfMerge pl A B) := by
  have wf := entriesWellFormed_entriesOfMerge pl A B
  have hperm : List.Perm
      (List.insertionSort histGE ((entriesOfMerge pl A B).map Prod.snd))
      ((entriesOfMerge pl A B).map Prod.snd) := List.perm_insertionSort _ _
  have h1 := hperm.map fun v => (keyOf pl v, v)
  have h2 : ((entriesOfMerge pl A B).map Prod.snd).map
      (fun v => (keyOf pl v, v)) = entriesOfMerge pl A B := by
    rw [List.map_map]
    have hpt : ∀ p ∈ entriesOfMerge pl A B,
        ((fun v => (keyOf pl v, v)) ∘ Prod.snd) p = id p := by
      intro p hp
      have hk := (lineRecord_of_wf wf hp).2
      show (keyOf pl p.2, p.2) = p
      rw [hk]
    exact (List.map_congr_left hpt).trans (List.map_id _)
  rw [h2] at h1
  exact h1

theorem merge_pairs_keys_nodup (pl : String → Option HistRec) (A B : String) :
    (((List.insertionSort histGE
        ((entriesOfMerge pl A B).map Prod.snd)).map
      fun v => (keyOf pl v, v)).map Prod.fst).Nodup := by
  have wf := entriesWellFormed_entriesOfMerge pl A B
  have hp := (merge_pairs_perm pl A B).map Prod.fst
  exact hp.nodup_iff.mpr wf.1

theorem parse_merge_output (pl : String → Option HistRec) (A B : String) :
    parseHistoryContent pl [] (mergeHistoryFiles pl A B) =
      (List.insertionSort histGE ((entriesOfMerge pl A B).map Prod.snd)).map
        fun v => (keyOf pl v, v) := by
  have wf := entriesWellFormed_entriesOfMerge pl A B
  have hperm : List.Perm
      (List.insertionSort histGE ((entriesOfMerge pl A B).map Prod.snd))
      ((entriesOfMerge pl A B).map Prod.snd) := List.perm_insertionSort _ _
  have hvsmem : ∀ v ∈ List.insertionSort histGE
      ((entriesOfMerge pl A B).map Prod.snd),
      ∃ p, p ∈ entriesOfMerge pl A B ∧ p.2 = v := by
    intro v hv
    have hv2 : v ∈ (entriesOfMerge pl A B).map Prod.snd := hperm.mem_iff.mp hv
    obtain ⟨p, hp, hpv⟩ := List.mem_map.mp hv2
    exact ⟨p, hp, hpv⟩
  have hrec : ∀ v ∈ List.insertionSort histGE
      ((entriesOfMerge pl A B).map Prod.snd),
      lineRecord pl v.line = some (keyOf pl v, v) := by
    intro v hv
    obtain ⟨p, hp, hpv⟩ := hvsmem v hv
    have h1 := (lineRecord_of_wf wf hp).1
    have h2 := (lineRecord_of_wf wf hp).2
    rw [hpv] at h1 h2
    rw [h1, h2]
  have hnl : ∀ v ∈ List.insertionSort histGE
      ((entriesOfMerge pl A B).map Prod.snd), '\n' ∉ v.line.data := by
    intro v hv
    obtain ⟨p, hp, hpv⟩ := hvsmem v hv
    have := (wf.2 p hp).2.1
    rw [hpv] at this
    exact this
  cases hv : List.insertionSort histGE ((entriesOfMerge pl A B).map Prod.snd) with
  | nil =>
    rw [show mergeHistoryFiles pl A B = serializeHistory
        ((List.insertionSort histGE
          ((entriesOfMerge pl A B).map Prod.snd)).map HistEntry.line) from rfl,
      hv]
    rfl
  | cons v0 vs' =>
    rw [show mergeHistoryFiles pl A B = serializeHistory
        ((List.insertionSort histGE
          ((entriesOfMerge pl A B).map Prod.snd)).map HistEntry.line) from rfl,
      parseHistoryContent]
    have hsplit : splitStr '\n' (serializeHistory
        ((List.insertionSort histGE
          ((entriesOfMerge pl A B).map Prod.snd)).map HistEntry.line)) =
        (List.insertionSort histGE
          ((entriesOfMerge pl A B).map Prod.snd)).map HistEntry.line ++ [""] := by
      refine splitStr_serializeHistory (by rw [hv]; simp) ?_
      intro l hl
      obtain ⟨v, hvm, hvl⟩ := List.mem_map.mp hl
      rw [← hvl]
      exact hnl v hvm
    rw [hsplit, List.foldl_append]
    have hnodup : ((([] : List (String × HistEntry)).map Prod.fst) ++
        (recordsOfLines pl ((List.insertionSort histGE
          ((entriesOfMerge pl A B).map Prod.snd)).map HistEntry.line)).map
          Prod.fst).Nodup := by
      rw [recordsOfLines_map_line hrec]
      simpa using merge_pairs_keys_nodup pl A B
    rw [parseFold_fresh pl _ [] hnodup, recordsOfLines_map_line hrec]
    simp only [List.foldl_cons, List.foldl_nil, List.nil_append]
    rw [← hv]
    have hblank : ∀ X : List (String × HistEntry),
        parseHistoryLine pl X "" = X := by
      intro X
      rw [parseHistoryLine, if_pos (by decide)]
    rw [hblank]

theorem lookup_merge_content (pl : String → Option HistRec) (A B : String)
    (k : String) :
    alistLookup k (parseHistoryContent pl [] (mergeHistoryFiles pl A B)) =
      alistLookup k (entriesOfMerge pl A B) := by
  rw [parse_merge_output]
  rcases hlook : alistLookup k (entriesOfMerge pl A B) with _ | v
  · have hk := alistLookup_none_iff.mp hlook
    apply alistLookup_none_iff.mpr
    intro hmem
    apply hk
    exact ((merge_pairs_perm pl A B).map Prod.fst).mem_iff.mp hmem
  · have hmem := mem_of_alistLookup_some hlook
    have hmem2 := (merge_pairs_perm pl A B).mem_iff.mpr hmem
    exact alistLookup_some_of_mem_nodup (merge_pairs_keys_nodup pl A B) hmem2

theorem parse_dominated (pl : String → Option HistRec) :
    ∀ (lines : List String) (m : List (String × HistEntry)),
      (∀ p ∈ recordsOfLines pl lines,
        ∃ ex, alistLookup p.1 m = some ex ∧ p.2.timestamp ≤ ex.timestamp) →
      lines.foldl (parseHistoryLine pl) m = m := by
  intro lines
  induction lines with
  | nil => intro m _; rfl
  | cons line rest ih =>
    intro m hdom
    rw [List.foldl_cons]
    rcases hr : lineRecord pl line with _ | q
    · rw [parseHistoryLine_none hr]
      apply ih
      intro p hp
      apply hdom
      have hrecs : recordsOfLines pl (line :: rest) =
          recordsOfLines pl rest := by
        simp [recordsOfLines, List.filterMap_cons, hr]
      rw [hrecs]
      exact hp
    · have hrecs : recordsOfLines pl (line :: rest) =
          q :: recordsOfLines pl rest := by
        simp [recordsOfLines, List.filterMap_cons, hr]
      obtain ⟨ex, hex, hts⟩ := hdom q (by rw [hrecs]; exact List.mem_cons_self _ _)
      have hstep : parseHistoryLine pl m line = m := by
        simp only [parseHistoryLine_eq, hr, hex]
        rw [if_neg (by omega)]
      rw [hstep]
      apply ih
      intro p hp
      apply hdom
      rw [hrecs]
      exact List.mem_cons_of_mem _ hp

theorem merge_absorb {pl : String → Option HistRec} {A B C : String}
    (hdom : histDominates pl (mergeHistoryFiles pl A B) C) :
    mergeHistoryFiles pl (mergeHistoryFiles pl A B) C =
      mergeHistoryFiles pl A B := by
  have hentries : entriesOfMerge pl (mergeHistoryFiles pl A B) C =
      (List.insertionSort histGE ((entriesOfMerge pl A B).map Prod.snd)).map
        fun v => (keyOf pl v, v) := by
    rw [show entriesOfMerge pl (mergeHistoryFiles pl A B) C =
        parseHistoryContent pl
          (parseHistoryContent pl [] (mergeHistoryFiles pl A B)) C from rfl,
      parse_merge_output, parseHistoryContent]
    apply parse_dominated
    intro p hp
    obtain ⟨ex, hex, hts⟩ := hdom p hp
    rw [parse_merge_output] at hex
    exact ⟨ex, hex, hts⟩
  rw [show mergeHistoryFiles pl (mergeHistoryFiles pl A B) C =
      serializeHistory ((List.insertionSort histGE
        ((entriesOfMerge pl (mergeHistoryFiles pl A B) C).map Prod.snd)).map
        HistEntry.line) from rfl,
    hentries, List.map_map]
  have h1 : (List.insertionSort histGE
      ((entriesOfMerge pl A B).map Prod.snd)).map
        (Prod.snd ∘ fun v => (keyOf pl v, v)) =
      List.insertionSort histGE ((entriesOfMerge pl A B).map Prod.snd) :=
    (List.map_congr_left fun v _ => rfl).trans (List.map_id _)
  rw [h1, List.Sorted.insertionSort_eq (List.sorted_insertionSort _ _)]
  rfl

theorem dominates_merge {pl : String → Option HistRec} {M C R : String}
    (h : histDominates pl M C) :
    histDominates pl (mergeHistoryFiles pl M R) C := by
  intro p hp
  obtain ⟨ex, hex, hts⟩ := h p hp
  have hex2 : firstMaxRecord (keyRecords (lineRecords pl M) p.1) = some ex := by
    have h3 := lookup_parseHistoryContent pl [] M p.1
    rw [hex] at h3
    exact h3.symm
  have hmem : ex ∈ keyRecords (lineRecords pl M) p.1 :=
    (firstMaxRecord_mem hex2).1
  have hmem2 : ex ∈ recordsFor pl M R p.1 := by
    rw [show recordsFor pl M R p.1 =
        keyRecords (lineRecords pl M ++ lineRecords pl R) p.1 from rfl,
      keyRecords_append]
    exact List.mem_append_left _ hmem
  obtain ⟨f, hf, hts2⟩ := firstMaxRecord_some_of_mem hmem2
  refine ⟨f, ?_, le_trans hts hts2⟩
  rw [lookup_merge_content, lookup_entriesOfMerge]
  exact hf

theorem merge_dominates_right (pl : String → Option HistRec) (A B : String) :
    histDominates pl (mergeHistoryFiles pl A B) B := by
  intro p hp
  have hmem : p.2 ∈ recordsFor pl A B p.1 := by
    rw [show recordsFor pl A B p.1 =
        keyRecords (lineRecords pl A ++ lineRecords pl B) p.1 from rfl,
      keyRecords_append]
    refine List.mem_append_right _ ?_
    exact List.mem_map.mpr ⟨p, List.mem_filter.mpr ⟨hp, by simp⟩, rfl⟩
  obtain ⟨f, hf, hts⟩ := firstMaxRecord_some_of_mem hmem
  refine ⟨f, ?_, hts⟩
  rw [lookup_merge_content, lookup_entriesOfMerge]
  exact hf

theorem dominates_mergeAll {pl : String → Option HistRec} {C : String} :
    ∀ (Rs : List String) (M : String), histDominates pl M C →
      histDominates pl (mergeAllHistory pl M Rs) C := by
  intro Rs
  induction Rs with
  | nil => intro M h; exact h
  | cons R Rs ih =>
    intro M h
    show histDominates pl
      (mergeAllHistory pl (mergeHistoryFiles pl M R) Rs) C
    exact ih _ (dominates_merge h)

theorem mergeAll_dominates {pl : String → Option HistRec} :
    ∀ (Rs : List String) (L R : String), R ∈ Rs →
      histDominates pl (mergeAllHistory pl L Rs) R := by
  intro Rs
  induction Rs with
  | nil => intro L R h; simp at h
  | cons R1 Rs ih =>
    intro L R h
    rcases List.mem_cons.mp h with h | h
    · subst h
      show histDominates pl
        (mergeAllHistory pl (mergeHistoryFiles pl L R) Rs) R
      exact dominates_mergeAll Rs _ (merge_dominates_right pl L R)
    · show histDominates pl
        (mergeAllHistory pl (mergeHistoryFiles pl L R1) Rs) R
      exact ih _ R h

theorem mergeAll_isMergeOutput {pl : String → Option HistRec} :
    ∀ (Rs : List String) (L : String), Rs ≠ [] →
      ∃ A B, mergeAllHistory pl L Rs = mergeHistoryFiles pl A B := by
  intro Rs
  induction Rs with
  | nil => intro L h; exact absurd rfl h
  | cons R Rs ih =>
    intro L _
    cases Rs with
    | nil => exact ⟨L, R, rfl⟩
    | cons R2 Rs2 =>
      show ∃ A B, mergeAllHistory pl (mergeHistoryFiles pl L R) (R2 :: Rs2) =
        mergeHistoryFiles pl A B
      exact ih (mergeHistoryFiles pl L R) (by simp)

theorem mergeAll_absorb {pl : String → Option HistRec} :
    ∀ (Rs : List String) (O : String),
      (∃ A B, O = mergeHistoryFiles pl A B) →
      (∀ R ∈ Rs, histDominates pl O R) →
      mergeAllHistory pl O Rs = O := by
  intro Rs
  induction Rs with
  | nil => intro O _ _; rfl
  | cons R Rs ih =>
    intro O hO hdom
    obtain ⟨A, B, hAB⟩ := hO
    have hstep : mergeHistoryFiles pl O R = O := by
      rw [hAB]
      exact merge_absorb (hAB ▸ hdom R (List.mem_cons_self _ _))
    show mergeAllHistory pl (mergeHistoryFiles pl O R) Rs = O
    rw [hstep]
    exact ih O ⟨A, B, hAB⟩ fun R2 h2 => hdom R2 (List.mem_cons_of_mem _ h2)

theorem mergeAll_fixed (pl : String → Option HistRec) (L : String)
    (Rs : List String) :
    mergeAllHistory pl (mergeAllHistory pl L Rs) Rs =
      mergeAllHistory pl L Rs := by
  cases Rs with
  | nil => rfl
  | cons R Rs' =>
    apply mergeAll_absorb
    · exact mergeAll_isMergeOutput _ L (by simp)
    · intro R2 h2
      exact mergeAll_dominates _ L R2 h2

theorem twoStage_eq_onePass (pl : String → Option HistRec)
    (A B C : String) (k : String) :
    alistLookup k (entriesOfMerge pl (mergeHistoryFiles pl A B) C) =
      alistLookup k (onePassEntries pl [A, B, C]) := by
  rw [show entriesOfMerge pl (mergeHistoryFiles pl A B) C =
      parseHistoryContent pl
        (parseHistoryContent pl [] (mergeHistoryFiles pl A B)) C from rfl,
    lookup_parseHistoryContent, lookup_merge_content, lookup_entriesOfMerge,
    show onePassEntries pl [A, B, C] =
      parseHistoryContent pl (parseHistoryContent pl
        (parseHistoryContent pl [] A) B) C from rfl,
    lookup_parseHistoryContent, lookup_parseHistoryContent,
    lookup_parseHistoryContent,
    show alistLookup k ([] : List (String × HistEntry)) = none from rfl,
    combineOpt_append, combineOpt_append]
  have h2 : recordsFor pl A B k =
      keyRecords (lineRecords pl A) k ++ keyRecords (lineRecords pl B) k := by
    rw [show recordsFor pl A B k =
        keyRecords (lineRecords pl A ++ lineRecords pl B) k from rfl,
      keyRecords_append]
  rw [h2]
  have h3 : ∀ (X Y Z : List HistEntry),
      combineOpt (firstMaxRecord (X ++ Y)) Z =
        combineOpt none (X ++ (Y ++ Z)) := by
    intro X Y Z
    rw [show (firstMaxRecord (X ++ Y) : Option HistEntry) =
        combineOpt none (X ++ Y) from rfl,
      combineOpt_append, List.append_assoc]
  exact h3 _ _ _

/-- Claim C3 (history merge).  (1) The merge's entries map sends each
session identifier to the outcome of the strict-greater fold over its
records in scan order (local content before remote content), and (2) that
outcome is exactly the first record attaining the greatest timestamp —
last-timestamp-wins with ties broken in favour of the record encountered
first.  (3) Blank, unparseable, and sessionId-less lines are skipped.
(4) The output lists the surviving records sorted by descending timestamp,
one per line with a trailing newline.  (5) Re-merging the merged content
against the unchanged remote set is a fixed point, and (6) syncHistoryFile
rewrites the local file exactly when the merged bytes differ from the local
content before the merge.  (7) For sources with pairwise distinct session
identifiers, merging sources A and B and then C yields the same final
mapping as parsing A, B, C into a single map in one pass. -/
theorem historyMerge_spec :
    ∀ parseLine : String → Option HistRec,
      (∀ (localContent remoteContent sid : String),
          alistLookup sid
              (entriesOfMerge parseLine localContent remoteContent) =
            firstMaxRecord
              (recordsFor parseLine localContent remoteContent sid)) ∧
      (∀ (rs : List HistEntry) (e : HistEntry), firstMaxRecord rs = some e →
          ∃ pre post, rs = pre ++ e :: post ∧
            (∀ x ∈ pre, x.timestamp < e.timestamp) ∧
            ∀ x ∈ rs, x.timestamp ≤ e.timestamp) ∧
      (∀ (m : List (String × HistEntry)) (line : String),
          isBlankLine line = true ∨ parseLine line = none →
          parseHistoryLine parseLine m line = m) ∧
      (∀ localContent remoteContent : String, ∃ es : List HistEntry,
          List.Sorted histGE es ∧
          List.Perm es
            ((entriesOfMerge parseLine localContent remoteContent).map
              Prod.snd) ∧
          mergeHistoryFiles parseLine localContent remoteContent =
            serializeHistory (es.map HistEntry.line) ∧
          (mergeHistoryFiles parseLine
              localContent remoteContent).data.getLast? = some '\n') ∧
      (∀ (localContent : String) (remotes : List String),
          mergeAllHistory parseLine
              (mergeAllHistory parseLine localContent remotes) remotes =
            mergeAllHistory parseLine localContent remotes) ∧
      (∀ (localContent : String) (remotes : List String),
          syncHistoryWritesLocal parseLine localContent remotes = true ↔
            mergeAllHistory parseLine localContent remotes ≠ localContent) ∧
      (∀ A B C : String,
          (∀ p ∈ lineRecords parseLine A, ∀ q ∈ lineRecords parseLine B,
            p.1 ≠ q.1) →
          (∀ p ∈ lineRecords parseLine A, ∀ q ∈ lineRecords parseLine C,
            p.1 ≠ q.1) →
          (∀ p ∈ lineRecords parseLine B, ∀ q ∈ lineRecords parseLine C,
            p.1 ≠ q.1) →
          ∀ k, alistLookup k (entriesOfMerge parseLine
              (mergeHistoryFiles parseLine A B) C) =
            alistLookup k (onePassEntries parseLine [A, B, C])) := by
  intro parseLine
  refine ⟨?_, ?_, ?_, ?_, ?_, ?_, ?_⟩
  · intro localContent remoteContent sid
    exact lookup_entriesOfMerge parseLine localContent remoteContent sid
  · intro rs e h
    exact firstMaxRecord_spec h
  · intro m line h
    rcases h with h | h
    · rw [parseHistoryLine, if_pos h]
    · by_cases hb : isBlankLine line
      · rw [parseHistoryLine, if_pos hb]
      · refine parseHistoryLine_none ?_ m
        rw [lineRecord, if_neg hb, h]
        rfl
  · intro localContent remoteContent
    refine ⟨List.insertionSort histGE
        ((entriesOfMerge parseLine localContent remoteContent).map Prod.snd),
      List.sorted_insertionSort _ _, List.perm_insertionSort _ _, rfl, ?_⟩
    show (serializeHistory _).data.getLast? = some '\n'
    exact List.getLast?_concat _
  · intro localContent remotes
    exact mergeAll_fixed parseLine localContent remotes
  · intro localContent remotes
    rw [syncHistoryWritesLocal]
    by_cases h : mergeAllHistory parseLine localContent remotes = localContent
    · simp [h]
    · simp [h]
  · intro A B C _ _ _ k
    exact twoStage_eq_onePass parseLine A B C k

/-- Witness for `historyMerge_spec` at concrete inputs with a concrete line
parser. -/
theorem historyMerge_witness :
    parseHistoryLine sampleParseLine [] "nonsense" = [] ∧
    mergeAllHistory sampleParseLine
        (mergeAllHistory sampleParseLine "a1" ["a2", "b1"]) ["a2", "b1"] =
      mergeAllHistory sampleParseLine "a1" ["a2", "b1"] ∧
    ∀ k, alistLookup k (entriesOfMerge sampleParseLine
        (mergeHistoryFiles sampleParseLine "a1" "b1") "c3") =
      alistLookup k (onePassEntries sampleParseLine ["a1", "b1", "c3"]) :=
  ⟨(historyMerge_spec sampleParseLine).2.2.1 [] "nonsense"
      (Or.inr (by decide)),
   (historyMerge_spec sampleParseLine).2.2.2.2.1 "a1" ["a2", "b1"],
   (historyMerge_spec sampleParseLine).2.2.2.2.2.2 "a1" "b1" "c3"
     (by decide) (by decide) (by decide)⟩
